import Mathlib

/-!
# Verification of the MyShama presence/queue server (`src/server.js`)

This file is a shallow embedding of the server's in-memory state and socket
event handlers.  JavaScript `Map`s are modelled as insertion-ordered
association lists (`setKey` keeps the position of an existing key and appends
a fresh one, exactly like `Map.set`), JS `Set`s of socket ids as
insertion-ordered duplicate-free lists, and `setTimeout`/`clearTimeout` as an
explicit multiset of live timers together with a monotonically increasing
timer-id allocator (Node timeout ids are positive, so the allocator starts
at 1 and the JS truthiness test `if (user.notificationTimeout)` coincides
with an `Option.isSome` test).  `Date.now()` is an explicit `now` argument of
every event step.  Socket emissions are collected in order into a trace of
`Emit` values.
-/

namespace MyShama

/-- The three presence statuses of `server.js` (`'idle' | 'outside' | 'queue'`). -/
inductive Status where
  | idle : Status
  | outside : Status
  | queue : Status
deriving DecidableEq, Repr

/-- One record of the `users` map: `{name, status, joinedAt, notificationTimeout}`. -/
structure User where
  name : String
  status : Status
  joinedAt : Nat
  notificationTimeout : Option Nat
deriving DecidableEq, Repr

/-- One entry of the projected state: `{name, joinedAt}`. -/
structure Entry where
  name : String
  joinedAt : Nat
deriving DecidableEq, Repr

/-- The projected state returned by `getState()`. -/
structure StateView where
  outside : List Entry
  queue : List Entry
deriving DecidableEq, Repr

/-- An armed `setTimeout` handle: its Node id, the `queuedUser.name` captured by
the callback closure, and the duration it was armed with. -/
structure Timer where
  id : Nat
  owner : String
  duration : Nat
deriving DecidableEq, Repr

/-- The whole mutable server state: the `users` map (socketId → record), the
`nameToSockets` map (lower-cased name → socket-id set), the pending timeouts
and the timer-id allocator. -/
structure ServerState where
  users : List (Nat × User)
  nameToSockets : List (String × List Nat)
  liveTimers : List Timer
  nextTimerId : Nat
deriving DecidableEq, Repr

/-- Outbound socket events, in emission order. -/
inductive Emit where
  | login_success : Nat → String → Emit
  | login_error : Nat → String → Emit
  | state_update : StateView → Emit
  | user_status : Nat → Status → Emit
  | your_turn : Nat → Emit
  | queue_timeout : Nat → Emit
deriving DecidableEq, Repr

/-- `MAX_OUTSIDE = 4`. -/
def MAX_OUTSIDE : Nat := 4

/-- `NOTIFICATION_TIMEOUT = 2 * 60 * 1000` (two minutes in milliseconds). -/
def NOTIFICATION_TIMEOUT : Nat := 2 * 60 * 1000

/-- `Map.get`: first value bound to the key. -/
def getKey {α β : Type} [DecidableEq α] : List (α × β) → α → Option β
  | [], _ => none
  | (k', v) :: rest, k => if k' = k then some v else getKey rest k

/-- `Map.set`: overwrite in place, or append a fresh binding. -/
def setKey {α β : Type} [DecidableEq α] : List (α × β) → α → β → List (α × β)
  | [], k, v => [(k, v)]
  | (k', v') :: rest, k, v =>
      if k' = k then (k, v) :: rest else (k', v') :: setKey rest k v

/-- `Map.delete`: remove the binding of the key. -/
def delKey {α β : Type} [DecidableEq α] : List (α × β) → α → List (α × β)
  | [], _ => []
  | (k', v') :: rest, k => if k' = k then rest else (k', v') :: delKey rest k

/-- The characters stripped by `sanitizeName` (`/[<>'"`;()]/g`). -/
def badChars : List Char := ['<', '>', '\'', '\"', Char.ofNat 96, ';', '(', ')']

/-- JS `toLowerCase` on names, character-wise (structural recursion so that
concrete states evaluate inside the kernel). -/
def lower (s : String) : String := String.mk (s.data.map Char.toLower)

/-- JS `trim`: strip leading and trailing whitespace. -/
def trimString (s : String) : String :=
  String.mk (((s.data.dropWhile Char.isWhitespace).reverse.dropWhile
    Char.isWhitespace).reverse)

/-- `sanitizeName(name)`: `none` models returning `null` (a non-string or falsy
argument, or an empty/oversized result). -/
def sanitizeName (name : Option String) : Option String :=
  match name with
  | none => none
  | some s =>
      if s = "" then none
      else
        let sanitized := trimString (String.mk (s.toList.filter (fun c => ¬ badChars.contains c)))
        if sanitized.length = 0 ∨ sanitized.length > 30 then none
        else some sanitized

/-- Stable insertion (after all existing entries with `joinedAt ≤`):
one step of the stable ascending sort used by `getState`. -/
def insertByJoined (e : Entry) : List Entry → List Entry
  | [] => [e]
  | x :: xs => if x.joinedAt ≤ e.joinedAt then x :: insertByJoined e xs else e :: x :: xs

/-- `sort((a, b) => a.joinedAt - b.joinedAt)`: a stable ascending sort. -/
def sortByJoined (l : List Entry) : List Entry :=
  l.foldl (fun acc e => insertByJoined e acc) []

/-- The de-duplicating partition loop of `getState()`: walk the `users` map in
insertion order, skipping lower-cased names already processed, and collect the
`outside` and `queue` entries. -/
def collectState : List (Nat × User) → List String → List Entry × List Entry
  | [], _ => ([], [])
  | (_, u) :: rest, seen =>
      let nl := (lower u.name)
      if seen.contains nl then collectState rest seen
      else
        let (o, q) := collectState rest (nl :: seen)
        match u.status with
        | Status.outside => (⟨u.name, u.joinedAt⟩ :: o, q)
        | Status.queue => (o, ⟨u.name, u.joinedAt⟩ :: q)
        | Status.idle => (o, q)

/-- `getState()`: de-duplicated partition, then sort both lists by `joinedAt`. -/
def getState (users : List (Nat × User)) : StateView :=
  let p := collectState users []
  ⟨sortByJoined p.1, sortByJoined p.2⟩

/-- `getSocketsByName(name)`: the socket-id set of a name, or the empty set. -/
def getSocketsByName (s : ServerState) (name : String) : List Nat :=
  (getKey s.nameToSockets (lower name)).getD []

/-- `getUserByName(name)`: the record of the first socket of the name's set
(`Array.from(sockets)[0]`), together with that socket id. -/
def getUserByName (s : ServerState) (name : String) : Option (Nat × User) :=
  match getKey s.nameToSockets (lower name) with
  | none => none
  | some socks =>
      match socks with
      | [] => none
      | sid :: _ =>
          match getKey s.users sid with
          | some u => some (sid, u)
          | none => none

/-- `clearUserNotificationTimeout(name)`: if the name resolves to a record with
a pending timeout, cancel the timeout and null the handle field. -/
def clearUserNotificationTimeout (s : ServerState) (name : String) : ServerState :=
  match getUserByName s name with
  | some (sid, u) =>
      match u.notificationTimeout with
      | some tid =>
          { s with
            users := setKey s.users sid { u with notificationTimeout := none },
            liveTimers := s.liveTimers.filter (fun t => t.id ≠ tid) }
      | none => s
  | none => s

/-- `updateUserStatus(name, status)`: set status and `joinedAt := Date.now()`
on the record of every socket of the name. -/
def updateUserStatus (s : ServerState) (name : String) (st : Status) (now : Nat) : ServerState :=
  let socks := getSocketsByName s name
  { s with
    users := socks.foldl (fun us sid =>
      match getKey us sid with
      | some u => setKey us sid { u with status := st, joinedAt := now }
      | none => us) s.users }

/-- The body of the `setTimeout` arrow in `notifyNextInQueue`: re-check the
captured name is still queued; if so demote it to idle, emit `queue_timeout`
to all of its sockets, broadcast, and re-run `notifyNextInQueue`. -/
def armOne (s : ServerState) (e : Entry) : ServerState × List Emit :=
  match getUserByName s e.name with
  | none => (s, [])
  | some (sid, u) =>
      let tid := s.nextTimerId
      let s1 : ServerState :=
        { s with
          liveTimers := s.liveTimers ++ [⟨tid, e.name, NOTIFICATION_TIMEOUT⟩],
          nextTimerId := s.nextTimerId + 1,
          users := setKey s.users sid { u with notificationTimeout := some tid } }
      (s1, (getSocketsByName s1 e.name).map (fun sid2 => Emit.your_turn sid2))

/-- `notifyNextInQueue()`: clear the timeout of every queued user, then — if
there is spare capacity and a non-empty queue — arm a fresh two-minute timeout
for each of the first `min(availableSlots, queue.length)` queued users and emit
`your_turn` to each of their sockets. -/
def notifyNextInQueue (s : ServerState) : ServerState × List Emit :=
  let view := getState s.users
  let availableSlots := MAX_OUTSIDE - view.outside.length
  let s1 := view.queue.foldl (fun acc q => clearUserNotificationTimeout acc q.name) s
  if availableSlots = 0 ∨ view.queue.length = 0 then (s1, [])
  else
    let toNotify := min availableSlots view.queue.length
    (view.queue.take toNotify).foldl
      (fun (acc : ServerState × List Emit) q =>
        let r := armOne acc.1 q
        (r.1, acc.2 ++ r.2)) (s1, [])

/-- The `'login'` handler. -/
def handleLogin (s : ServerState) (sid : Nat) (raw : Option String) (now : Nat) :
    ServerState × List Emit :=
  match sanitizeName raw with
  | none => (s, [Emit.login_error sid "Invalid name"])
  | some sanitized =>
      let nameLower := (lower sanitized)
      match getKey s.nameToSockets nameLower with
      | some socks =>
          if sid ∈ socks then
            let s1 :=
              if (getKey s.users sid).isNone then
                { s with users := setKey s.users sid ⟨sanitized, Status.idle, now, none⟩ }
              else s
            (s1, [Emit.login_success sid sanitized, Emit.state_update (getState s1.users)])
          else if socks.length > 0 then
            (s, [Emit.login_error sid "Name already in use"])
          else
            let s1 : ServerState :=
              { s with
                nameToSockets := setKey s.nameToSockets nameLower (socks ++ [sid]),
                users := setKey s.users sid ⟨sanitized, Status.idle, now, none⟩ }
            (s1, [Emit.login_success sid sanitized, Emit.state_update (getState s1.users)])
      | none =>
          let s1 : ServerState :=
            { s with
              nameToSockets := setKey s.nameToSockets nameLower [sid],
              users := setKey s.users sid ⟨sanitized, Status.idle, now, none⟩ }
          (s1, [Emit.login_success sid sanitized, Emit.state_update (getState s1.users)])

/-- `state.queue.findIndex(u => (lower u.name)Case() === (lower name)Case())`:
JS `findIndex`, returning `-1` when absent. -/
def findIndexByName (queue : List Entry) (name : String) : Int :=
  match queue.findIdx? (fun u2 => decide ((lower u2.name) = (lower name))) with
  | some i => (i : Int)
  | none => -1

/-- The `'leave_class'` handler.  Note there is no guard on the sender's
status: any socket present in `users` is processed. -/
def handleLeaveClass (s : ServerState) (sid : Nat) (now : Nat) : ServerState × List Emit :=
  match getKey s.users sid with
  | none => (s, [])
  | some user =>
      let state := getState s.users
      let outsideCount := state.outside.length
      let queueCount := state.queue.length
      let availableSlots : Int := (MAX_OUTSIDE : Int) - (outsideCount : Int)
      let isUserQueued : Bool := state.queue.any (fun u2 => (lower u2.name) = (lower user.name))
      let queueIndex : Int := findIndexByName state.queue user.name
      let s1 := clearUserNotificationTimeout s user.name
      let s2 : ServerState :=
        if queueCount > 0 then
          if isUserQueued = true ∧ queueIndex > (-1 : Int) ∧ queueIndex < availableSlots then
            updateUserStatus s1 user.name Status.outside now
          else if isUserQueued = false ∧ (queueCount : Int) < availableSlots then
            updateUserStatus s1 user.name Status.outside now
          else
            updateUserStatus s1 user.name Status.queue now
        else
          if outsideCount < MAX_OUTSIDE then
            updateUserStatus s1 user.name Status.outside now
          else
            updateUserStatus s1 user.name Status.queue now
      let r := notifyNextInQueue s2
      (r.1, Emit.state_update (getState s2.users) :: r.2)

/-- The `'come_back'` handler: a strict no-op unless the sender's status is
`outside`. -/
def handleComeBack (s : ServerState) (sid : Nat) (now : Nat) : ServerState × List Emit :=
  match getKey s.users sid with
  | none => (s, [])
  | some user =>
      if user.status ≠ Status.outside then (s, [])
      else
        let s1 := updateUserStatus s user.name Status.idle now
        let r := notifyNextInQueue s1
        (r.1, Emit.state_update (getState s1.users) :: r.2)

/-- The `'leave_queue'` handler: a strict no-op unless the sender's status is
`queue`. -/
def handleLeaveQueue (s : ServerState) (sid : Nat) (now : Nat) : ServerState × List Emit :=
  match getKey s.users sid with
  | none => (s, [])
  | some user =>
      if user.status ≠ Status.queue then (s, [])
      else
        let s1 := clearUserNotificationTimeout s user.name
        let s2 := updateUserStatus s1 user.name Status.idle now
        let r := notifyNextInQueue s2
        (r.1, Emit.state_update (getState s2.users) :: r.2)

/-- The `'request_state'` handler. -/
def handleRequestState (s : ServerState) (sid : Nat) : ServerState × List Emit :=
  match getKey s.users sid with
  | some user => (s, [Emit.user_status sid user.status, Emit.state_update (getState s.users)])
  | none => (s, [Emit.state_update (getState s.users)])

/-- The `'disconnect'` handler.  On the last socket of a name the registry key
is deleted **before** `clearUserNotificationTimeout` runs, so the latter can no
longer resolve the name and the pending timeout survives. -/
def handleDisconnect (s : ServerState) (sid : Nat) : ServerState × List Emit :=
  match getKey s.users sid with
  | none => (s, [])
  | some user =>
      let nameLower := (lower user.name)
      match getKey s.nameToSockets nameLower with
      | none => (s, [])
      | some socks =>
          let socks1 := socks.filter (fun x => x ≠ sid)
          if socks1.length = 0 then
            let s1 : ServerState := { s with nameToSockets := delKey s.nameToSockets nameLower }
            let s2 := clearUserNotificationTimeout s1 user.name
            let s3 : ServerState := { s2 with users := delKey s2.users sid }
            let r := notifyNextInQueue s3
            (r.1, Emit.state_update (getState s3.users) :: r.2)
          else
            ({ s with
               nameToSockets := setKey s.nameToSockets nameLower socks1,
               users := delKey s.users sid }, [])

/-- The callback of the claim timer of `notifyNextInQueue`, fired with the
captured owner name. -/
def timerCallback (s : ServerState) (name : String) (now : Nat) : ServerState × List Emit :=
  match getUserByName s name with
  | some p =>
      if p.2.status = Status.queue then
        let s1 := updateUserStatus s name Status.idle now
        let qEmits := (getSocketsByName s1 name).map (fun sid => Emit.queue_timeout sid)
        let r := notifyNextInQueue s1
        (r.1, qEmits ++ Emit.state_update (getState s1.users) :: r.2)
      else (s, [])
  | none => (s, [])

/-- Expiry of the timer with id `tid`: a timer that was cancelled by
`clearTimeout` (removed from `liveTimers`) never fires; a live one is consumed
and its callback runs. -/
def fireTimer (s : ServerState) (tid : Nat) (now : Nat) : ServerState × List Emit :=
  match s.liveTimers.find? (fun t => t.id = tid) with
  | none => (s, [])
  | some t =>
      let s0 : ServerState := { s with liveTimers := s.liveTimers.filter (fun t2 => t2.id ≠ tid) }
      timerCallback s0 t.owner now

/-- The inbound events of the server: the five client events plus the two
transport/runtime events (`disconnect`, timer expiry). -/
inductive Event where
  | login : Nat → Option String → Event
  | leave_class : Nat → Event
  | come_back : Nat → Event
  | leave_queue : Nat → Event
  | request_state : Nat → Event
  | disconnect : Nat → Event
  | timer_fire : Nat → Event

/-- One atomic event step of the single-threaded server, at time `now`. -/
def step (s : ServerState) (e : Event) (now : Nat) : ServerState × List Emit :=
  match e with
  | Event.login sid raw => handleLogin s sid raw now
  | Event.leave_class sid => handleLeaveClass s sid now
  | Event.come_back sid => handleComeBack s sid now
  | Event.leave_queue sid => handleLeaveQueue s sid now
  | Event.request_state sid => handleRequestState s sid
  | Event.disconnect sid => handleDisconnect s sid
  | Event.timer_fire tid => fireTimer s tid now

/-- The state of a freshly started server: empty maps, no timers, Node's
timeout ids starting at 1. -/
def initState : ServerState := ⟨[], [], [], 1⟩

/-- Run a list of timestamped events from a state. -/
def runEvents (s : ServerState) (evs : List (Event × Nat)) : ServerState :=
  evs.foldl (fun acc ev => (step acc ev.1 ev.2).1) s

/-- The states reachable from a fresh server by any sequence of events. -/
inductive Reachable : ServerState → Prop where
  | init : Reachable initState
  | step (s : ServerState) (e : Event) (now : Nat) :
      Reachable s → Reachable (step s e now).1

/-- Projection of a user map keeping the socket id and one field of the
record; equality of projections is how we state that an operation leaves
that field of every record (and the key structure) untouched. -/
def projMap {γ : Type} (g : User → γ) (us : List (Nat × User)) : List (Nat × γ) :=
  us.map (fun p => (p.1, g p.2))

/-- The name/status/joinedAt view of a record: everything `getState` reads. -/
def viewFields (u : User) : String × Status × Nat := (u.name, u.status, u.joinedAt)

/-- Number of records of the `users` map holding a given status. -/
def countStatus : List (Nat × User) → Status → Nat
  | [], _ => 0
  | p :: rest, st => (if p.2.status = st then 1 else 0) + countStatus rest st

/-- The projected entries of all records with a given status, in map order. -/
def statusEntries : List (Nat × User) → Status → List Entry
  | [], _ => []
  | p :: rest, st =>
      if p.2.status = st then ⟨p.2.name, p.2.joinedAt⟩ :: statusEntries rest st
      else statusEntries rest st

/-- No two records of the map share a canonical (lower-cased) name, so the
de-duplication inside `getState` never drops anything. -/
def DNodupLower (us : List (Nat × User)) : Prop :=
  (us.map (fun p => (lower p.2.name))).Nodup

/-- Well-formedness of the two maps: duplicate-free keys, every registry
entry holds exactly one socket id, and the record of every socket points back
to a registry entry holding exactly that socket. -/
def WF (s : ServerState) : Prop :=
  (s.users.map Prod.fst).Nodup ∧
  (s.nameToSockets.map Prod.fst).Nodup ∧
  (∀ p ∈ s.nameToSockets, p.2.length = 1) ∧
  (∀ q ∈ s.users, getKey s.nameToSockets ((lower q.2.name)) = some [q.1])

/-- Freshness of the timer-id allocator: ids are positive and every live
timer id and every stored timeout handle is below the allocator. -/
def TimerFresh (s : ServerState) : Prop :=
  1 ≤ s.nextTimerId ∧
  (∀ t ∈ s.liveTimers, t.id < s.nextTimerId) ∧
  (∀ q ∈ s.users, q.2.notificationTimeout.getD 0 < s.nextTimerId)

/-- The inductive invariant of the server: well-formed maps, fresh timer
ids, and at most `MAX_OUTSIDE` records outside. -/
def Inv (s : ServerState) : Prop :=
  WF s ∧ TimerFresh s ∧ countStatus s.users Status.outside ≤ MAX_OUTSIDE

/-- Whether the identity of `name` currently holds an armed claim timer:
its record stores a timeout id that is still pending. -/
def holdsArmedTimer (s : ServerState) (name : String) : Bool :=
  match getUserByName s name with
  | some p =>
      match p.2.notificationTimeout with
      | some tid => s.liveTimers.any (fun t => t.id = tid)
      | none => false
  | none => false

/-- Recognizer for `your_turn` emissions. -/
def isYourTurn : Emit → Bool
  | Emit.your_turn _ => true
  | _ => false

/-- Recognizer for `state_update` broadcasts. -/
def isStateUpdate : Emit → Bool
  | Emit.state_update _ => true
  | _ => false

/-- Every `your_turn` signal of the trace is preceded by a `state_update`
broadcast. -/
def broadcastBeforeTurn (es : List Emit) : Prop :=
  ∀ (i : Nat) (hi : i < es.length), isYourTurn (es.get ⟨i, hi⟩) = true →
    ∃ (j : Nat) (hj : j < es.length), j < i ∧ isStateUpdate (es.get ⟨j, hj⟩) = true

/-- A one-user state: socket 1 logged in as `A`, idle. -/
def stateIdleA : ServerState :=
  ⟨[(1, ⟨"A", Status.idle, 0, none⟩)], [("a", [1])], [], 1⟩

/-- Five identities log in and all send `leave_class`: the first four go
outside, the fifth queues. -/
def scenarioFive : List (Event × Nat) :=
  [(Event.login 1 (some "A"), 0), (Event.login 2 (some "B"), 1),
   (Event.login 3 (some "C"), 2), (Event.login 4 (some "D"), 3),
   (Event.login 5 (some "E"), 4),
   (Event.leave_class 1, 5), (Event.leave_class 2, 6),
   (Event.leave_class 3, 7), (Event.leave_class 4, 8),
   (Event.leave_class 5, 9)]

/-- The state reached by `scenarioFive`: `A`–`D` outside, `E` queued. -/
def stateFive : ServerState := runEvents initState scenarioFive

/-- `scenarioFive`, then identity `A` comes back: a slot frees up, the Turn
Notifier arms a claim timer for the queued `E`. -/
def scenarioNotified : List (Event × Nat) :=
  scenarioFive ++ [(Event.come_back 1, 10)]

/-- The state reached by `scenarioNotified`: `E` queued with an armed claim
timer. -/
def stateNotified : ServerState := runEvents initState scenarioNotified

/-- `scenarioNotified`, then the only socket of `E` disconnects while `E`
holds the armed claim timer. -/
def stateAfterDisconnect : ServerState :=
  (step stateNotified (Event.disconnect 5) 11).1

/-- Four identities log in and go outside, filling the class; no queue. -/
def scenarioFull : List (Event × Nat) :=
  [(Event.login 1 (some "A"), 0), (Event.login 2 (some "B"), 1),
   (Event.login 3 (some "C"), 2), (Event.login 4 (some "D"), 3),
   (Event.leave_class 1, 4), (Event.leave_class 2, 5),
   (Event.leave_class 3, 6), (Event.leave_class 4, 7)]

/-- The full-class state reached by `scenarioFull`. -/
def stateFull : ServerState := runEvents initState scenarioFull

/-- The state after the `outside` identity `A` sends `leave_class` into the
full class: the handler runs and demotes `A` to the queue. -/
def stateDemoted : ServerState := (step stateFull (Event.leave_class 1) 8).1

/-- The status the `leave_class` handler assigns to the sender, factored out
of the handler verbatim (same projections, same comparisons). -/
def codeLeaveClassTarget (s : ServerState) (user : User) : Status :=
  let state := getState s.users
  let outsideCount := state.outside.length
  let queueCount := state.queue.length
  let availableSlots : Int := (MAX_OUTSIDE : Int) - (outsideCount : Int)
  let isUserQueued : Bool := state.queue.any (fun u2 => (lower u2.name) = (lower user.name))
  let queueIndex : Int := findIndexByName state.queue user.name
  if queueCount > 0 then
    if isUserQueued = true ∧ queueIndex > (-1 : Int) ∧ queueIndex < availableSlots then
      Status.outside
    else if isUserQueued = false ∧ (queueCount : Int) < availableSlots then
      Status.outside
    else
      Status.queue
  else
    if outsideCount < MAX_OUTSIDE then Status.outside else Status.queue

/-- The admission rule exactly as the claim states it, phrased over the
projected view: with `O` the outside count, `avail = MAX_OUTSIDE - O` and `Q`
the FIFO-ordered projected queue — if `Q` is empty the sender becomes outside
exactly when `O < MAX_OUTSIDE` and otherwise becomes queued; if `Q` is
non-empty, a queued sender at FIFO index `< avail` becomes outside, a
non-queued sender becomes outside exactly when `|Q| < avail` strictly, and in
every other case the sender is placed into or kept in queue. -/
def specLeaveClassTarget (view : StateView) (user : User) : Status :=
  if view.queue.length = 0 then
    (if view.outside.length < MAX_OUTSIDE then Status.outside else Status.queue)
  else if user.status = Status.queue ∧
      findIndexByName view.queue user.name <
        (MAX_OUTSIDE : Int) - (view.outside.length : Int) then
    Status.outside
  else if ¬ user.status = Status.queue ∧
      (view.queue.length : Int) < (MAX_OUTSIDE : Int) - (view.outside.length : Int) then
    Status.outside
  else
    Status.queue

/-! ## Association-list lemmas -/

section MapLemmas

variable {α β : Type} [DecidableEq α]

theorem getKey_some_mem {m : List (α × β)} {k : α} {v : β} (h : getKey m k = some v) :
    (k, v) ∈ m := by
  induction m with
  | nil => simp [getKey] at h
  | cons p rest ih =>
      rw [getKey] at h
      split at h
      · rename_i heq
        cases p
        simp only [Option.some.injEq] at h
        simp_all
      · exact List.mem_cons_of_mem _ (ih h)

theorem getKey_eq_of_mem {m : List (α × β)} {k : α} {v : β}
    (hnd : (m.map Prod.fst).Nodup) (h : (k, v) ∈ m) : getKey m k = some v := by
  induction m with
  | nil => simp at h
  | cons p rest ih =>
      simp only [List.map_cons, List.nodup_cons] at hnd
      rcases List.mem_cons.mp h with h' | h'
      · subst h'
        simp [getKey]
      · rw [getKey]
        split
        · rename_i heq
          exact absurd (heq ▸ List.mem_map_of_mem Prod.fst h') hnd.1
        · exact ih hnd.2 h'

theorem getKey_none_iff {m : List (α × β)} {k : α} :
    getKey m k = none ↔ k ∉ m.map Prod.fst := by
  induction m with
  | nil => simp [getKey]
  | cons p rest ih =>
      rw [getKey]
      split
      · rename_i heq
        subst heq
        simp
      · rename_i hne
        simp only [List.map_cons, List.mem_cons]
        constructor
        · intro h hk
          rcases hk with hk | hk
          · exact hne hk.symm
          · exact (ih.mp h) hk
        · intro h
          exact ih.mpr (fun hk => h (Or.inr hk))

theorem getKey_setKey_self (m : List (α × β)) (k : α) (v : β) :
    getKey (setKey m k v) k = some v := by
  induction m with
  | nil => simp [setKey, getKey]
  | cons p rest ih =>
      rw [setKey]
      split
      · simp [getKey]
      · rename_i hne
        rw [getKey]
        split
        · exact absurd (by assumption) hne
        · exact ih

theorem getKey_setKey_ne (m : List (α × β)) {k k' : α} (v : β) (h : k' ≠ k) :
    getKey (setKey m k v) k' = getKey m k' := by
  induction m with
  | nil => simp [setKey, getKey, Ne.symm h]
  | cons p rest ih =>
      rw [setKey]
      by_cases hpk : p.1 = k
      · rw [if_pos hpk, getKey, getKey, if_neg (fun hh => h hh.symm),
          if_neg (by rw [hpk]; exact fun hh => h hh.symm)]
      · rw [if_neg hpk, getKey, getKey]
        by_cases hpk' : p.1 = k'
        · rw [if_pos hpk', if_pos hpk']
        · rw [if_neg hpk', if_neg hpk']
          exact ih

theorem setKey_of_getKey_none {m : List (α × β)} {k : α} (v : β)
    (h : getKey m k = none) : setKey m k v = m ++ [(k, v)] := by
  induction m with
  | nil => simp [setKey]
  | cons p rest ih =>
      rw [getKey] at h
      split at h
      · exact absurd h (by simp)
      · rw [setKey]
        rename_i hne
        rw [if_neg hne, ih h]
        simp

theorem keys_setKey_of_getKey_some {m : List (α × β)} {k : α} {u : β} (v : β)
    (h : getKey m k = some u) :
    (setKey m k v).map Prod.fst = m.map Prod.fst := by
  induction m with
  | nil => simp [getKey] at h
  | cons p rest ih =>
      rw [getKey] at h
      rw [setKey]
      split at h
      · rename_i heq
        rw [if_pos heq]
        simp [heq]
      · rename_i hne
        rw [if_neg hne]
        simp [ih h]

theorem keys_setKey_nodup {m : List (α × β)} {k : α} (v : β)
    (hnd : (m.map Prod.fst).Nodup) : ((setKey m k v).map Prod.fst).Nodup := by
  cases h : getKey m k with
  | some u => rw [keys_setKey_of_getKey_some v h]; exact hnd
  | none =>
      rw [setKey_of_getKey_none v h]
      simp only [List.map_append, List.map_cons, List.map_nil]
      rw [List.nodup_append]
      refine ⟨hnd, List.nodup_singleton _, ?_⟩
      intro a ha hb
      simp only [List.mem_singleton] at hb
      subst hb
      exact (getKey_none_iff.mp h) ha

theorem mem_setKey {m : List (α × β)} {k : α} {v : β} {q : α × β}
    (h : q ∈ setKey m k v) : q ∈ m ∨ q = (k, v) := by
  induction m with
  | nil => simp [setKey] at h; simp [h]
  | cons p rest ih =>
      rw [setKey] at h
      split at h
      · rcases List.mem_cons.mp h with h' | h'
        · exact Or.inr h'
        · exact Or.inl (List.mem_cons_of_mem _ h')
      · rcases List.mem_cons.mp h with h' | h'
        · exact Or.inl (h' ▸ List.mem_cons_self _ _)
        · rcases ih h' with h'' | h''
          · exact Or.inl (List.mem_cons_of_mem _ h'')
          · exact Or.inr h''

theorem getKey_delKey_self {m : List (α × β)} {k : α}
    (hnd : (m.map Prod.fst).Nodup) : getKey (delKey m k) k = none := by
  induction m with
  | nil => simp [delKey, getKey]
  | cons p rest ih =>
      simp only [List.map_cons, List.nodup_cons] at hnd
      rw [delKey]
      split
      · rename_i heq
        subst heq
        exact getKey_none_iff.mpr hnd.1
      · rw [getKey]
        split
        · exact absurd (by assumption) (by assumption)
        · exact ih hnd.2

theorem getKey_delKey_ne (m : List (α × β)) {k k' : α} (h : k' ≠ k) :
    getKey (delKey m k) k' = getKey m k' := by
  induction m with
  | nil => simp [delKey]
  | cons p rest ih =>
      rw [delKey]
      by_cases hpk : p.1 = k
      · rw [if_pos hpk, getKey, if_neg (by rw [hpk]; exact fun hh => h hh.symm)]
      · rw [if_neg hpk, getKey, getKey]
        by_cases hpk' : p.1 = k'
        · rw [if_pos hpk', if_pos hpk']
        · rw [if_neg hpk', if_neg hpk']
          exact ih

theorem mem_delKey {m : List (α × β)} {k : α} {q : α × β} (h : q ∈ delKey m k) :
    q ∈ m := by
  induction m with
  | nil => simp [delKey] at h
  | cons p rest ih =>
      rw [delKey] at h
      split at h
      · exact List.mem_cons_of_mem _ h
      · rcases List.mem_cons.mp h with h' | h'
        · exact h' ▸ List.mem_cons_self _ _
        · exact List.mem_cons_of_mem _ (ih h')

theorem keys_delKey_sublist (m : List (α × β)) (k : α) :
    ((delKey m k).map Prod.fst).Sublist (m.map Prod.fst) := by
  induction m with
  | nil => simp [delKey]
  | cons p rest ih =>
      rw [delKey]
      split
      · simp only [List.map_cons]
        exact List.Sublist.cons _ (List.Sublist.refl _)
      · simp only [List.map_cons]
        exact ih.cons₂ _

theorem keys_delKey_nodup {m : List (α × β)} {k : α}
    (hnd : (m.map Prod.fst).Nodup) : ((delKey m k).map Prod.fst).Nodup :=
  (keys_delKey_sublist m k).nodup hnd

theorem mem_delKey_ne {m : List (α × β)} {k : α} {q : α × β}
    (hnd : (m.map Prod.fst).Nodup) (h : q ∈ delKey m k) : q.1 ≠ k := by
  induction m with
  | nil => simp [delKey] at h
  | cons p rest ih =>
      simp only [List.map_cons, List.nodup_cons] at hnd
      rw [delKey] at h
      by_cases hpk : p.1 = k
      · rw [if_pos hpk] at h
        intro hq
        exact hnd.1 (by rw [hpk, ← hq]; exact List.mem_map_of_mem Prod.fst h)
      · rw [if_neg hpk] at h
        rcases List.mem_cons.mp h with h' | h'
        · subst h'
          exact hpk
        · exact ih hnd.2 h'

end MapLemmas

/-! ## Projection lemmas: which fields an operation leaves untouched -/

section ProjLemmas

variable {γ δ : Type}

theorem projMap_keys (g : User → γ) (us : List (Nat × User)) :
    (projMap g us).map Prod.fst = us.map Prod.fst := by
  simp [projMap, List.map_map]

theorem projMap_comp_of_eq (h : γ → δ) {g : User → γ} {us us' : List (Nat × User)}
    (hg : projMap g us = projMap g us') :
    projMap (fun u => h (g u)) us = projMap (fun u => h (g u)) us' := by
  have e1 : ∀ vs : List (Nat × User),
      projMap (fun u => h (g u)) vs = (projMap g vs).map (fun q => (q.1, h q.2)) := by
    intro vs
    simp [projMap, List.map_map]
  rw [e1, e1, hg]

theorem getKey_projMap (g : User → γ) (us : List (Nat × User)) (k : Nat) :
    getKey (projMap g us) k = (getKey us k).map g := by
  induction us with
  | nil => simp [projMap, getKey]
  | cons p rest ih =>
      simp only [projMap, List.map_cons]
      rw [getKey, getKey]
      by_cases hpk : p.1 = k
      · rw [if_pos hpk, if_pos hpk]
        rfl
      · rw [if_neg hpk, if_neg hpk]
        exact ih

theorem getKey_map_of_projMap_eq {g : User → γ} {us us' : List (Nat × User)}
    (h : projMap g us = projMap g us') (k : Nat) :
    (getKey us k).map g = (getKey us' k).map g := by
  rw [← getKey_projMap, ← getKey_projMap, h]

theorem mem_projMap_of_mem {g : User → γ} {us : List (Nat × User)} {q : Nat × User}
    (h : q ∈ us) : (q.1, g q.2) ∈ projMap g us :=
  List.mem_map_of_mem _ h

theorem of_mem_projMap {g : User → γ} {us : List (Nat × User)} {k : Nat} {x : γ}
    (h : (k, x) ∈ projMap g us) : ∃ u, (k, u) ∈ us ∧ g u = x := by
  rcases List.mem_map.mp h with ⟨p, hp, he⟩
  refine ⟨p.2, ?_, ?_⟩
  · have : p.1 = k := congrArg Prod.fst he
    rw [← this]
    exact hp
  · exact congrArg Prod.snd he

theorem projMap_setKey {g : User → γ} {us : List (Nat × User)} {k : Nat} {u v : User}
    (h : getKey us k = some u) (hg : g v = g u) :
    projMap g (setKey us k v) = projMap g us := by
  induction us with
  | nil => simp [getKey] at h
  | cons p rest ih =>
      rw [getKey] at h
      rw [setKey]
      by_cases hpk : p.1 = k
      · rw [if_pos hpk] at h ⊢
        have : p.2 = u := by simpa using h
        simp [projMap, hg, this, hpk]
      · rw [if_neg hpk] at h ⊢
        simp only [projMap, List.map_cons]
        exact congrArg (fun l => (p.1, g p.2) :: l) (ih h)

theorem countStatus_congr {us us' : List (Nat × User)}
    (h : projMap User.status us = projMap User.status us') (st : Status) :
    countStatus us st = countStatus us' st := by
  induction us generalizing us' with
  | nil =>
      have : us' = [] := by
        have := h.symm
        simpa [projMap] using this
      rw [this]
  | cons p rest ih =>
      cases us' with
      | nil => simp [projMap] at h
      | cons p' rest' =>
          simp only [projMap, List.map_cons, List.cons.injEq] at h
          rw [countStatus, countStatus]
          have hst : p.2.status = p'.2.status := congrArg Prod.snd h.1
          rw [hst, ih h.2]

theorem WF_congr {s s' : ServerState} (hn : s'.nameToSockets = s.nameToSockets)
    (h : projMap User.name s'.users = projMap User.name s.users) (hwf : WF s) : WF s' := by
  obtain ⟨h1, h2, h3, h4⟩ := hwf
  refine ⟨?_, by rw [hn]; exact h2, by rw [hn]; exact h3, ?_⟩
  · have e : s'.users.map Prod.fst = s.users.map Prod.fst := by
      rw [← projMap_keys User.name s'.users, h, projMap_keys]
    rw [e]
    exact h1
  · intro q hq
    have hm := @mem_projMap_of_mem _ User.name _ _ hq
    rw [h] at hm
    rcases of_mem_projMap hm with ⟨u, hu, hname⟩
    have := h4 (q.1, u) hu
    rw [hn]
    simpa [hname] using this

theorem TimerFresh_congr {s s' : ServerState} (hl : s'.liveTimers = s.liveTimers)
    (hid : s'.nextTimerId = s.nextTimerId)
    (h : projMap User.notificationTimeout s'.users = projMap User.notificationTimeout s.users)
    (htf : TimerFresh s) : TimerFresh s' := by
  obtain ⟨h1, h2, h3⟩ := htf
  refine ⟨by rw [hid]; exact h1, by rw [hl, hid]; exact h2, ?_⟩
  intro q hq
  have hm := @mem_projMap_of_mem _ User.notificationTimeout _ _ hq
  rw [h] at hm
  rcases of_mem_projMap hm with ⟨u, hu, hnt⟩
  have := h3 (q.1, u) hu
  rw [hid]
  simpa [hnt] using this

theorem WF_DNodup {s : ServerState} (h : WF s) : DNodupLower s.users := by
  obtain ⟨h1, _, _, h4⟩ := h
  have husersnd : s.users.Nodup := List.Nodup.of_map _ h1
  refine List.Nodup.map_on ?_ husersnd
  intro x hx y hy hxy
  have ex := h4 x hx
  have ey := h4 y hy
  rw [hxy] at ex
  rw [ex] at ey
  have : x.1 = y.1 := by simpa using ey
  exact List.inj_on_of_nodup_map h1 hx hy this

end ProjLemmas

/-! ## Counting and projection of statuses -/

theorem countStatus_setKey {us : List (Nat × User)} {k : Nat} {u : User} (v : User)
    (h : getKey us k = some u) (st : Status) :
    countStatus (setKey us k v) st + (if u.status = st then 1 else 0) =
      countStatus us st + (if v.status = st then 1 else 0) := by
  induction us with
  | nil => simp [getKey] at h
  | cons p rest ih =>
      rw [getKey] at h
      rw [setKey]
      by_cases hpk : p.1 = k
      · rw [if_pos hpk] at h ⊢
        have hu : p.2 = u := by simpa using h
        simp only [countStatus, hu]
        omega
      · rw [if_neg hpk] at h ⊢
        simp only [countStatus]
        have := ih h
        omega

theorem countStatus_setKey_none {us : List (Nat × User)} {k : Nat} (v : User)
    (h : getKey us k = none) (st : Status) :
    countStatus (setKey us k v) st = countStatus us st + (if v.status = st then 1 else 0) := by
  induction us with
  | nil => simp [setKey, countStatus]
  | cons p rest ih =>
      rw [getKey] at h
      by_cases hpk : p.1 = k
      · rw [if_pos hpk] at h
        exact absurd h (by simp)
      · rw [if_neg hpk] at h
        rw [setKey, if_neg hpk]
        simp only [countStatus]
        rw [ih h]
        omega

theorem countStatus_delKey_le (us : List (Nat × User)) (k : Nat) (st : Status) :
    countStatus (delKey us k) st ≤ countStatus us st := by
  induction us with
  | nil => simp [delKey]
  | cons p rest ih =>
      rw [delKey]
      by_cases hpk : p.1 = k
      · rw [if_pos hpk]
        simp only [countStatus]
        omega
      · rw [if_neg hpk]
        simp only [countStatus]
        omega

theorem length_statusEntries (us : List (Nat × User)) (st : Status) :
    (statusEntries us st).length = countStatus us st := by
  induction us with
  | nil => simp [statusEntries, countStatus]
  | cons p rest ih =>
      rw [statusEntries, countStatus]
      by_cases hst : p.2.status = st
      · rw [if_pos hst, if_pos hst, List.length_cons, ih]
        omega
      · rw [if_neg hst, if_neg hst, ih]
        omega

theorem mem_statusEntries {us : List (Nat × User)} {st : Status} {e : Entry} :
    e ∈ statusEntries us st ↔
      ∃ p, p ∈ us ∧ p.2.status = st ∧ e = ⟨p.2.name, p.2.joinedAt⟩ := by
  induction us with
  | nil => simp [statusEntries]
  | cons p rest ih =>
      rw [statusEntries]
      by_cases hst : p.2.status = st
      · rw [if_pos hst]
        constructor
        · intro h
          rcases List.mem_cons.mp h with h' | h'
          · exact ⟨p, List.mem_cons_self _ _, hst, h'⟩
          · rcases ih.mp h' with ⟨q, hq, hqs, hqe⟩
            exact ⟨q, List.mem_cons_of_mem _ hq, hqs, hqe⟩
        · rintro ⟨q, hq, hqs, hqe⟩
          rcases List.mem_cons.mp hq with h' | h'
          · subst h'
            exact hqe ▸ List.mem_cons_self _ _
          · exact List.mem_cons_of_mem _ (ih.mpr ⟨q, h', hqs, hqe⟩)
      · rw [if_neg hst]
        constructor
        · intro h
          rcases ih.mp h with ⟨q, hq, hqs, hqe⟩
          exact ⟨q, List.mem_cons_of_mem _ hq, hqs, hqe⟩
        · rintro ⟨q, hq, hqs, hqe⟩
          rcases List.mem_cons.mp hq with h' | h'
          · subst h'
            exact absurd hqs hst
          · exact ih.mpr ⟨q, h', hqs, hqe⟩

/-! ## The stable sort of `getState` -/

theorem insertByJoined_perm (e : Entry) (l : List Entry) :
    (insertByJoined e l).Perm (e :: l) := by
  induction l with
  | nil => simp [insertByJoined]
  | cons x xs ih =>
      rw [insertByJoined]
      by_cases hle : x.joinedAt ≤ e.joinedAt
      · rw [if_pos hle]
        exact (List.Perm.cons x ih).trans (List.Perm.swap e x xs)
      · rw [if_neg hle]

theorem sortFold_perm (l acc : List Entry) :
    (l.foldl (fun a e => insertByJoined e a) acc).Perm (acc ++ l) := by
  induction l generalizing acc with
  | nil => simp
  | cons e rest ih =>
      rw [List.foldl_cons]
      exact (ih (insertByJoined e acc)).trans
        (((insertByJoined_perm e acc).append_right rest).trans List.perm_middle.symm)

theorem sortByJoined_perm (l : List Entry) : (sortByJoined l).Perm l := by
  simpa using sortFold_perm l []

theorem length_sortByJoined (l : List Entry) : (sortByJoined l).length = l.length :=
  (sortByJoined_perm l).length_eq

theorem mem_sortByJoined {e : Entry} {l : List Entry} : e ∈ sortByJoined l ↔ e ∈ l :=
  (sortByJoined_perm l).mem_iff

/-! ## `getState` under duplicate-free canonical names -/

theorem collectState_eq : ∀ (us : List (Nat × User)) (seen : List String),
    (∀ p ∈ us, (lower p.2.name) ∉ seen) → DNodupLower us →
    collectState us seen = (statusEntries us Status.outside, statusEntries us Status.queue) := by
  intro us
  induction us with
  | nil =>
      intro seen _ _
      simp [collectState, statusEntries]
  | cons p rest ih =>
      intro seen hseen hnd
      obtain ⟨sid, u⟩ := p
      have hmem : (lower u.name) ∉ seen := hseen (sid, u) (List.mem_cons_self _ _)
      have hcontains : seen.contains (lower u.name) = false := by
        simpa using hmem
      rw [DNodupLower, List.map_cons, List.nodup_cons] at hnd
      have hrest : collectState rest ((lower u.name) :: seen) =
          (statusEntries rest Status.outside, statusEntries rest Status.queue) := by
        refine ih _ ?_ hnd.2
        intro q hq
        simp only [List.mem_cons]
        push_neg
        constructor
        · intro hEq
          exact hnd.1 (hEq ▸ List.mem_map_of_mem (fun r => (lower r.2.name)) hq)
        · exact hseen q (List.mem_cons_of_mem _ hq)
      simp only [collectState, hcontains, Bool.false_eq_true, if_false, hrest]
      cases hst : u.status <;>
        simp [statusEntries, hst]

theorem getState_eq {us : List (Nat × User)} (hnd : DNodupLower us) :
    getState us =
      ⟨sortByJoined (statusEntries us Status.outside),
       sortByJoined (statusEntries us Status.queue)⟩ := by
  rw [getState, collectState_eq us [] (by simp) hnd]

theorem length_getState_outside {us : List (Nat × User)} (hnd : DNodupLower us) :
    (getState us).outside.length = countStatus us Status.outside := by
  rw [getState_eq hnd]
  exact (length_sortByJoined _).trans (length_statusEntries _ _)

theorem length_getState_queue {us : List (Nat × User)} (hnd : DNodupLower us) :
    (getState us).queue.length = countStatus us Status.queue := by
  rw [getState_eq hnd]
  exact (length_sortByJoined _).trans (length_statusEntries _ _)

theorem mem_getState_queue {us : List (Nat × User)} {e : Entry} (hnd : DNodupLower us) :
    e ∈ (getState us).queue ↔
      ∃ p, p ∈ us ∧ p.2.status = Status.queue ∧ e = ⟨p.2.name, p.2.joinedAt⟩ := by
  rw [getState_eq hnd]
  exact mem_sortByJoined.trans mem_statusEntries

/-! ## Resolving names under well-formedness -/

theorem WF_registry {s : ServerState} {sid : Nat} {u : User} (hwf : WF s)
    (h : getKey s.users sid = some u) :
    getKey s.nameToSockets (lower u.name) = some [sid] :=
  hwf.2.2.2 (sid, u) (getKey_some_mem h)

theorem WF_getSocketsByName {s : ServerState} {sid : Nat} {u : User} (hwf : WF s)
    (h : getKey s.users sid = some u) : getSocketsByName s u.name = [sid] := by
  rw [getSocketsByName, WF_registry hwf h]
  rfl

theorem WF_getUserByName {s : ServerState} {sid : Nat} {u : User} (hwf : WF s)
    (h : getKey s.users sid = some u) : getUserByName s u.name = some (sid, u) := by
  simp only [getUserByName, WF_registry hwf h, h]

theorem getUserByName_getKey {s : ServerState} {name : String} {sid : Nat} {u : User}
    (h : getUserByName s name = some (sid, u)) : getKey s.users sid = some u := by
  rw [getUserByName] at h
  cases hnt : getKey s.nameToSockets (lower name) with
  | none => simp [hnt] at h
  | some socks =>
      cases socks with
      | nil => simp [hnt] at h
      | cons sid0 rest =>
          cases hu : getKey s.users sid0 with
          | none => simp [hnt, hu] at h
          | some u0 =>
              simp only [hnt, hu, Option.some.injEq, Prod.mk.injEq] at h
              rw [← h.1]
              rw [hu, h.2]

/-! ## Structure of `clearUserNotificationTimeout` -/

theorem clear_nameToSockets (s : ServerState) (name : String) :
    (clearUserNotificationTimeout s name).nameToSockets = s.nameToSockets := by
  cases h : getUserByName s name with
  | none => simp [clearUserNotificationTimeout, h]
  | some p =>
      obtain ⟨sid, u⟩ := p
      cases hnt : u.notificationTimeout <;>
        simp [clearUserNotificationTimeout, h, hnt]

theorem clear_nextTimerId (s : ServerState) (name : String) :
    (clearUserNotificationTimeout s name).nextTimerId = s.nextTimerId := by
  cases h : getUserByName s name with
  | none => simp [clearUserNotificationTimeout, h]
  | some p =>
      obtain ⟨sid, u⟩ := p
      cases hnt : u.notificationTimeout <;>
        simp [clearUserNotificationTimeout, h, hnt]

theorem clear_liveTimers_sub {s : ServerState} {name : String} {t : Timer}
    (h : t ∈ (clearUserNotificationTimeout s name).liveTimers) : t ∈ s.liveTimers := by
  cases hg : getUserByName s name with
  | none => simpa [clearUserNotificationTimeout, hg] using h
  | some p =>
      obtain ⟨sid, u⟩ := p
      cases hnt : u.notificationTimeout with
      | none => simpa [clearUserNotificationTimeout, hg, hnt] using h
      | some tid =>
          simp only [clearUserNotificationTimeout, hg, hnt] at h
          exact List.mem_of_mem_filter h

theorem clear_projMap_viewFields (s : ServerState) (name : String) :
    projMap viewFields (clearUserNotificationTimeout s name).users =
      projMap viewFields s.users := by
  cases hg : getUserByName s name with
  | none => simp [clearUserNotificationTimeout, hg]
  | some p =>
      obtain ⟨sid, u⟩ := p
      cases hnt : u.notificationTimeout with
      | none => simp [clearUserNotificationTimeout, hg, hnt]
      | some tid =>
          simp only [clearUserNotificationTimeout, hg, hnt]
          exact projMap_setKey (getUserByName_getKey hg) rfl

theorem clear_TimerFresh {s : ServerState} {name : String} (htf : TimerFresh s) :
    TimerFresh (clearUserNotificationTimeout s name) := by
  cases hg : getUserByName s name with
  | none => simpa [clearUserNotificationTimeout, hg] using htf
  | some p =>
      obtain ⟨sid, u⟩ := p
      cases hnt : u.notificationTimeout with
      | none => simpa [clearUserNotificationTimeout, hg, hnt] using htf
      | some tid =>
          simp only [clearUserNotificationTimeout, hg, hnt]
          obtain ⟨h1, h2, h3⟩ := htf
          refine ⟨h1, ?_, ?_⟩
          · intro t ht
            exact h2 t (List.mem_of_mem_filter ht)
          · intro q hq
            rcases mem_setKey hq with hq' | hq'
            · exact h3 q hq'
            · subst hq'
              simpa using h1

/-! ## Structure of `updateUserStatus` -/

theorem update_nameToSockets (s : ServerState) (name : String) (st : Status) (now : Nat) :
    (updateUserStatus s name st now).nameToSockets = s.nameToSockets := rfl

theorem update_liveTimers (s : ServerState) (name : String) (st : Status) (now : Nat) :
    (updateUserStatus s name st now).liveTimers = s.liveTimers := rfl

theorem update_nextTimerId (s : ServerState) (name : String) (st : Status) (now : Nat) :
    (updateUserStatus s name st now).nextTimerId = s.nextTimerId := rfl

theorem foldUpdate_projMap {γ : Type} (g : User → γ)
    (hg : ∀ u st now, g { u with status := st, joinedAt := now } = g u)
    (st : Status) (now : Nat) :
    ∀ (socks : List Nat) (us : List (Nat × User)),
    projMap g (socks.foldl (fun us sid =>
      match getKey us sid with
      | some u => setKey us sid { u with status := st, joinedAt := now }
      | none => us) us) = projMap g us := by
  intro socks
  induction socks with
  | nil => intro us; rfl
  | cons sid rest ih =>
      intro us
      rw [List.foldl_cons]
      cases hu : getKey us sid with
      | none => exact ih us
      | some u => exact (ih _).trans (projMap_setKey hu (hg u st now))

theorem update_projMap_name (s : ServerState) (name : String) (st : Status) (now : Nat) :
    projMap User.name (updateUserStatus s name st now).users = projMap User.name s.users :=
  foldUpdate_projMap User.name (fun _ _ _ => rfl) st now _ s.users

theorem update_projMap_nt (s : ServerState) (name : String) (st : Status) (now : Nat) :
    projMap User.notificationTimeout (updateUserStatus s name st now).users =
      projMap User.notificationTimeout s.users :=
  foldUpdate_projMap User.notificationTimeout (fun _ _ _ => rfl) st now _ s.users

theorem updateUserStatus_eq {s : ServerState} {sid : Nat} {u : User} (hwf : WF s)
    (h : getKey s.users sid = some u) (st : Status) (now : Nat) :
    updateUserStatus s u.name st now =
      { s with users := setKey s.users sid { u with status := st, joinedAt := now } } := by
  simp only [updateUserStatus, WF_getSocketsByName hwf h, List.foldl_cons, List.foldl_nil, h]

theorem update_WF {s : ServerState} (hwf : WF s) (name : String) (st : Status) (now : Nat) :
    WF (updateUserStatus s name st now) :=
  @WF_congr s (updateUserStatus s name st now) rfl (update_projMap_name s name st now) hwf

theorem update_TimerFresh {s : ServerState} (htf : TimerFresh s) (name : String)
    (st : Status) (now : Nat) : TimerFresh (updateUserStatus s name st now) :=
  @TimerFresh_congr s (updateUserStatus s name st now) rfl rfl
    (update_projMap_nt s name st now) htf

/-! ## Structure of `armOne` -/

theorem armOne_nameToSockets (s : ServerState) (e : Entry) :
    (armOne s e).1.nameToSockets = s.nameToSockets := by
  cases hg : getUserByName s e.name with
  | none => simp [armOne, hg]
  | some p =>
      obtain ⟨sid, u⟩ := p
      simp [armOne, hg]

theorem armOne_projMap_viewFields (s : ServerState) (e : Entry) :
    projMap viewFields (armOne s e).1.users = projMap viewFields s.users := by
  cases hg : getUserByName s e.name with
  | none => simp [armOne, hg]
  | some p =>
      obtain ⟨sid, u⟩ := p
      simp only [armOne, hg]
      exact projMap_setKey (getUserByName_getKey hg) rfl

theorem armOne_nextTimerId_mono (s : ServerState) (e : Entry) :
    s.nextTimerId ≤ (armOne s e).1.nextTimerId := by
  cases hg : getUserByName s e.name with
  | none => simp [armOne, hg]
  | some p =>
      obtain ⟨sid, u⟩ := p
      simp [armOne, hg]

theorem armOne_liveTimers_mem {s : ServerState} {e : Entry} {t : Timer}
    (h : t ∈ (armOne s e).1.liveTimers) : t ∈ s.liveTimers ∨ s.nextTimerId ≤ t.id := by
  cases hg : getUserByName s e.name with
  | none =>
      rw [armOne] at h
      rw [hg] at h
      exact Or.inl h
  | some p =>
      obtain ⟨sid, u⟩ := p
      simp only [armOne, hg] at h
      rcases List.mem_append.mp h with h' | h'
      · exact Or.inl h'
      · simp only [List.mem_singleton] at h'
        subst h'
        exact Or.inr (le_refl _)

theorem armOne_TimerFresh {s : ServerState} {e : Entry} (htf : TimerFresh s) :
    TimerFresh (armOne s e).1 := by
  cases hg : getUserByName s e.name with
  | none => simpa [armOne, hg] using htf
  | some p =>
      obtain ⟨sid, u⟩ := p
      simp only [armOne, hg]
      obtain ⟨h1, h2, h3⟩ := htf
      refine ⟨Nat.le_succ_of_le h1, ?_, ?_⟩
      · intro t ht
        rcases List.mem_append.mp ht with h' | h'
        · exact Nat.lt_succ_of_lt (h2 t h')
        · simp only [List.mem_singleton] at h'
          subst h'
          exact Nat.lt_succ_self _
      · intro q hq
        rcases mem_setKey hq with hq' | hq'
        · exact Nat.lt_succ_of_lt (h3 q hq')
        · subst hq'
          simp [Nat.lt_succ_self]

/-! ## The two folds of `notifyNextInQueue` -/

theorem clearFold_nameToSockets (l : List Entry) (s : ServerState) :
    (l.foldl (fun acc q => clearUserNotificationTimeout acc q.name) s).nameToSockets =
      s.nameToSockets := by
  induction l generalizing s with
  | nil => rfl
  | cons q rest ih =>
      rw [List.foldl_cons]
      rw [ih]
      exact clear_nameToSockets s q.name

theorem clearFold_nextTimerId (l : List Entry) (s : ServerState) :
    (l.foldl (fun acc q => clearUserNotificationTimeout acc q.name) s).nextTimerId =
      s.nextTimerId := by
  induction l generalizing s with
  | nil => rfl
  | cons q rest ih =>
      rw [List.foldl_cons, ih]
      exact clear_nextTimerId s q.name

theorem clearFold_projMap_viewFields (l : List Entry) (s : ServerState) :
    projMap viewFields (l.foldl (fun acc q => clearUserNotificationTimeout acc q.name) s).users =
      projMap viewFields s.users := by
  induction l generalizing s with
  | nil => rfl
  | cons q rest ih =>
      rw [List.foldl_cons, ih]
      exact clear_projMap_viewFields s q.name

theorem clearFold_liveTimers_sub {l : List Entry} {s : ServerState} {t : Timer}
    (h : t ∈ (l.foldl (fun acc q => clearUserNotificationTimeout acc q.name) s).liveTimers) :
    t ∈ s.liveTimers := by
  induction l generalizing s with
  | nil => exact h
  | cons q rest ih =>
      rw [List.foldl_cons] at h
      exact clear_liveTimers_sub (ih h)

theorem clearFold_TimerFresh {l : List Entry} {s : ServerState} (htf : TimerFresh s) :
    TimerFresh (l.foldl (fun acc q => clearUserNotificationTimeout acc q.name) s) := by
  induction l generalizing s with
  | nil => exact htf
  | cons q rest ih =>
      rw [List.foldl_cons]
      exact ih (clear_TimerFresh htf)

theorem armFold_nameToSockets (l : List Entry) (s : ServerState) (es : List Emit) :
    ((l.foldl (fun (acc : ServerState × List Emit) q =>
      ((armOne acc.1 q).1, acc.2 ++ (armOne acc.1 q).2)) (s, es)).1).nameToSockets =
      s.nameToSockets := by
  induction l generalizing s es with
  | nil => rfl
  | cons q rest ih =>
      rw [List.foldl_cons, ih]
      exact armOne_nameToSockets s q

theorem armFold_projMap_viewFields (l : List Entry) (s : ServerState) (es : List Emit) :
    projMap viewFields ((l.foldl (fun (acc : ServerState × List Emit) q =>
      ((armOne acc.1 q).1, acc.2 ++ (armOne acc.1 q).2)) (s, es)).1).users =
      projMap viewFields s.users := by
  induction l generalizing s es with
  | nil => rfl
  | cons q rest ih =>
      rw [List.foldl_cons, ih]
      exact armOne_projMap_viewFields s q

theorem armFold_nextTimerId_mono (l : List Entry) (s : ServerState) (es : List Emit) :
    s.nextTimerId ≤ ((l.foldl (fun (acc : ServerState × List Emit) q =>
      ((armOne acc.1 q).1, acc.2 ++ (armOne acc.1 q).2)) (s, es)).1).nextTimerId := by
  induction l generalizing s es with
  | nil => exact le_refl _
  | cons q rest ih =>
      rw [List.foldl_cons]
      exact (armOne_nextTimerId_mono s q).trans (ih _ _)

theorem armFold_liveTimers_mem {l : List Entry} {s : ServerState} {es : List Emit} {t : Timer}
    (h : t ∈ ((l.foldl (fun (acc : ServerState × List Emit) q =>
      ((armOne acc.1 q).1, acc.2 ++ (armOne acc.1 q).2)) (s, es)).1).liveTimers) :
    t ∈ s.liveTimers ∨ s.nextTimerId ≤ t.id := by
  induction l generalizing s es with
  | nil => exact Or.inl h
  | cons q rest ih =>
      rw [List.foldl_cons] at h
      rcases ih h with h' | h'
      · rcases armOne_liveTimers_mem h' with h'' | h''
        · exact Or.inl h''
        · exact Or.inr h''
      · exact Or.inr ((armOne_nextTimerId_mono s q).trans h')

theorem armFold_TimerFresh {l : List Entry} {s : ServerState} {es : List Emit}
    (htf : TimerFresh s) :
    TimerFresh ((l.foldl (fun (acc : ServerState × List Emit) q =>
      ((armOne acc.1 q).1, acc.2 ++ (armOne acc.1 q).2)) (s, es)).1) := by
  induction l generalizing s es with
  | nil => exact htf
  | cons q rest ih =>
      rw [List.foldl_cons]
      exact ih (armOne_TimerFresh htf)

/-! ## Top-level structure of `notifyNextInQueue` -/

theorem notify_nameToSockets (s : ServerState) :
    (notifyNextInQueue s).1.nameToSockets = s.nameToSockets := by
  rw [notifyNextInQueue]
  split
  · exact clearFold_nameToSockets _ s
  · rw [armFold_nameToSockets]
    exact clearFold_nameToSockets _ s

theorem notify_projMap_viewFields (s : ServerState) :
    projMap viewFields (notifyNextInQueue s).1.users = projMap viewFields s.users := by
  rw [notifyNextInQueue]
  split
  · exact clearFold_projMap_viewFields _ s
  · rw [armFold_projMap_viewFields]
    exact clearFold_projMap_viewFields _ s

theorem notify_liveTimers_mem {s : ServerState} {t : Timer}
    (h : t ∈ (notifyNextInQueue s).1.liveTimers) :
    t ∈ s.liveTimers ∨ s.nextTimerId ≤ t.id := by
  rw [notifyNextInQueue] at h
  split at h
  · exact Or.inl (clearFold_liveTimers_sub h)
  · rcases armFold_liveTimers_mem h with h' | h'
    · exact Or.inl (clearFold_liveTimers_sub h')
    · rw [clearFold_nextTimerId] at h'
      exact Or.inr h'

theorem notify_TimerFresh {s : ServerState} (htf : TimerFresh s) :
    TimerFresh (notifyNextInQueue s).1 := by
  rw [notifyNextInQueue]
  split
  · exact clearFold_TimerFresh htf
  · exact armFold_TimerFresh (clearFold_TimerFresh htf)

theorem notify_projMap_name (s : ServerState) :
    projMap User.name (notifyNextInQueue s).1.users = projMap User.name s.users :=
  projMap_comp_of_eq (fun v => v.1) (notify_projMap_viewFields s)

theorem notify_projMap_status (s : ServerState) :
    projMap User.status (notifyNextInQueue s).1.users = projMap User.status s.users :=
  projMap_comp_of_eq (fun v => v.2.1) (notify_projMap_viewFields s)

theorem notify_WF {s : ServerState} (hwf : WF s) : WF (notifyNextInQueue s).1 :=
  @WF_congr s (notifyNextInQueue s).1 (notify_nameToSockets s) (notify_projMap_name s) hwf

theorem notify_countStatus (s : ServerState) (st : Status) :
    countStatus (notifyNextInQueue s).1.users st = countStatus s.users st :=
  countStatus_congr (notify_projMap_status s) st

theorem notify_Inv {s : ServerState} (hinv : Inv s) : Inv (notifyNextInQueue s).1 :=
  ⟨notify_WF hinv.1, notify_TimerFresh hinv.2.1,
   by rw [notify_countStatus]; exact hinv.2.2⟩

/-! ## Invariant preservation: `login` -/

theorem length_one_mem_eq {l : List Nat} {x : Nat} (h : l.length = 1) (hx : x ∈ l) :
    l = [x] := by
  cases l with
  | nil => simp at hx
  | cons a rest =>
      cases rest with
      | nil =>
          simp only [List.mem_singleton] at hx
          rw [hx]
      | cons b r2 => simp at h

theorem option_map_eq_some {γ : Type} {o : Option User} {g : User → γ} {x : γ}
    (h : o.map g = some x) : ∃ u, o = some u ∧ g u = x := by
  cases o with
  | none => simp at h
  | some u =>
      refine ⟨u, rfl, ?_⟩
      simpa using h

theorem login_Inv {s : ServerState} (hinv : Inv s) (sid : Nat) (raw : Option String)
    (now : Nat) : Inv (handleLogin s sid raw now).1 := by
  obtain ⟨hwf, htf, hcount⟩ := hinv
  cases hs : sanitizeName raw with
  | none => exact (by simpa [handleLogin, hs] using (⟨hwf, htf, hcount⟩ : Inv s))
  | some sanitized =>
      cases hnt : getKey s.nameToSockets (lower sanitized) with
      | some socks =>
          by_cases hmem : sid ∈ socks
          · have hsocks : socks = [sid] :=
              length_one_mem_eq (hwf.2.2.1 _ (getKey_some_mem hnt)) hmem
            subst hsocks
            cases hu : getKey s.users sid with
            | some u0 =>
                simpa [handleLogin, hs, hnt, hmem, hu] using
                  (⟨hwf, htf, hcount⟩ : Inv s)
            | none =>
                simp only [handleLogin, hs, hnt, if_pos hmem, hu, Option.isNone_none,
                  if_pos]
                refine ⟨⟨keys_setKey_nodup _ hwf.1, hwf.2.1, hwf.2.2.1, ?_⟩,
                  ⟨htf.1, htf.2.1, ?_⟩, ?_⟩
                · intro q hq
                  rcases mem_setKey hq with hq' | hq'
                  · exact hwf.2.2.2 q hq'
                  · subst hq'
                    exact hnt
                · intro q hq
                  rcases mem_setKey hq with hq' | hq'
                  · exact htf.2.2 q hq'
                  · subst hq'
                    simpa using htf.1
                · rw [countStatus_setKey_none _ hu]
                  simpa using hcount
          · have hlen : socks.length = 1 := hwf.2.2.1 _ (getKey_some_mem hnt)
            have hpos : socks.length > 0 := by omega
            simpa [handleLogin, hs, hnt, hmem, hpos] using
              (⟨hwf, htf, hcount⟩ : Inv s)
      | none =>
          simp only [handleLogin, hs, hnt]
          refine ⟨⟨keys_setKey_nodup _ hwf.1, keys_setKey_nodup _ hwf.2.1, ?_, ?_⟩,
            ⟨htf.1, htf.2.1, ?_⟩, ?_⟩
          · intro p hp
            rcases mem_setKey hp with hp' | hp'
            · exact hwf.2.2.1 p hp'
            · subst hp'
              rfl
          · intro q hq
            rcases mem_setKey hq with hq' | hq'
            · have hold := hwf.2.2.2 q hq'
              by_cases hk : (lower q.2.name) = (lower sanitized)
              · rw [hk] at hold
                rw [hold] at hnt
                exact absurd hnt (by simp)
              · rw [getKey_setKey_ne _ _ hk]
                exact hold
            · subst hq'
              exact getKey_setKey_self _ _ _
          · intro q hq
            rcases mem_setKey hq with hq' | hq'
            · exact htf.2.2 q hq'
            · subst hq'
              simpa using htf.1
          · cases hu : getKey s.users sid with
            | none =>
                rw [countStatus_setKey_none _ hu]
                simpa using hcount
            | some u0 =>
                have h2 := countStatus_setKey
                  (⟨sanitized, Status.idle, now, none⟩ : User) hu Status.outside
                simp at h2
                show countStatus
                  (setKey s.users sid ⟨sanitized, Status.idle, now, none⟩)
                  Status.outside ≤ MAX_OUTSIDE
                omega

/-! ## Identifying the sender inside the projected queue -/

theorem eq_of_lower_eq {us : List (Nat × User)} (hnd : DNodupLower us) {p q : Nat × User}
    (hp : p ∈ us) (hq : q ∈ us) (h : (lower p.2.name) = (lower q.2.name)) : p = q :=
  List.inj_on_of_nodup_map hnd hp hq h

theorem isQueued_iff {s : ServerState} {sid : Nat} {user : User} (hwf : WF s)
    (h : getKey s.users sid = some user) :
    ((getState s.users).queue.any
      (fun u2 => decide ((lower u2.name) = (lower user.name))) = true) ↔
      user.status = Status.queue := by
  have hnd := WF_DNodup hwf
  rw [List.any_eq_true]
  constructor
  · rintro ⟨e, he, hp⟩
    have hee := of_decide_eq_true hp
    rcases (mem_getState_queue hnd).mp he with ⟨p, hpmem, hpstat, hpe⟩
    have hpq : p = (sid, user) := by
      refine eq_of_lower_eq hnd hpmem (getKey_some_mem h) ?_
      rw [hpe] at hee
      exact hee
    rw [hpq] at hpstat
    exact hpstat
  · intro hst
    refine ⟨⟨user.name, user.joinedAt⟩, ?_, by simp⟩
    exact (mem_getState_queue hnd).mpr ⟨(sid, user), getKey_some_mem h, hst, rfl⟩

/-! ## Invariant preservation: the shared clear/update/notify pipeline -/

theorem foldUpdate_countStatus_le (st : Status) (hst : st ≠ Status.outside) (now : Nat) :
    ∀ (socks : List Nat) (us : List (Nat × User)),
    countStatus (socks.foldl (fun us sid =>
      match getKey us sid with
      | some u => setKey us sid { u with status := st, joinedAt := now }
      | none => us) us) Status.outside ≤ countStatus us Status.outside := by
  intro socks
  induction socks with
  | nil => intro us; exact le_refl _
  | cons sid rest ih =>
      intro us
      rw [List.foldl_cons]
      cases hu : getKey us sid with
      | none => exact ih us
      | some u =>
          refine le_trans (ih _) ?_
          show countStatus (setKey us sid { u with status := st, joinedAt := now })
            Status.outside ≤ countStatus us Status.outside
          have h2 := countStatus_setKey
            ({ u with status := st, joinedAt := now }) hu Status.outside
          simp only [] at h2
          rw [if_neg hst] at h2
          omega

theorem update_countStatus_le (s : ServerState) (name : String) {st : Status}
    (hst : st ≠ Status.outside) (now : Nat) :
    countStatus (updateUserStatus s name st now).users Status.outside ≤
      countStatus s.users Status.outside :=
  foldUpdate_countStatus_le st hst now _ s.users

theorem clear_Inv {s : ServerState} (hinv : Inv s) (name : String) :
    Inv (clearUserNotificationTimeout s name) := by
  obtain ⟨hwf, htf, hcount⟩ := hinv
  refine ⟨?_, clear_TimerFresh htf, ?_⟩
  · exact @WF_congr s (clearUserNotificationTimeout s name) (clear_nameToSockets s name)
      (projMap_comp_of_eq (fun v => v.1) (clear_projMap_viewFields s name)) hwf
  · rw [countStatus_congr
      (projMap_comp_of_eq (fun v => v.2.1) (clear_projMap_viewFields s name)) Status.outside]
    exact hcount

theorem update_notify_Inv_le {s : ServerState} (hinv : Inv s) (name : String) {st : Status}
    (hst : st ≠ Status.outside) (now : Nat) :
    Inv (notifyNextInQueue (updateUserStatus s name st now)).1 :=
  notify_Inv ⟨update_WF hinv.1 name st now, update_TimerFresh hinv.2.1 name st now,
    le_trans (update_countStatus_le s name hst now) hinv.2.2⟩

theorem cun_Inv {s : ServerState} {sid : Nat} {user : User} (hwf : WF s) (htf : TimerFresh s)
    (hget : getKey s.users sid = some user) (st : Status) (now : Nat)
    (hbound : countStatus s.users Status.outside + (if st = Status.outside then 1 else 0) ≤
      MAX_OUTSIDE + (if user.status = Status.outside then 1 else 0)) :
    Inv (notifyNextInQueue
      (updateUserStatus (clearUserNotificationTimeout s user.name) user.name st now)).1 := by
  have hcl := clear_projMap_viewFields s user.name
  have hwf1 : WF (clearUserNotificationTimeout s user.name) :=
    @WF_congr s (clearUserNotificationTimeout s user.name) (clear_nameToSockets s user.name)
      (projMap_comp_of_eq (fun v => v.1) hcl) hwf
  have htf1 := @clear_TimerFresh s user.name htf
  have hcount1 : countStatus (clearUserNotificationTimeout s user.name).users Status.outside =
      countStatus s.users Status.outside :=
    countStatus_congr (projMap_comp_of_eq (fun v => v.2.1) hcl) Status.outside
  rcases option_map_eq_some
      ((getKey_map_of_projMap_eq hcl sid).trans (by rw [hget]; rfl)) with ⟨u1, hu1, hv⟩
  have hname : u1.name = user.name := congrArg (fun v => v.1) hv
  have hstat : u1.status = user.status := congrArg (fun v => v.2.1) hv
  have hupd := updateUserStatus_eq hwf1 hu1 st now
  rw [hname] at hupd
  refine notify_Inv ⟨?_, ?_, ?_⟩
  · rw [hupd]
    exact @WF_congr (clearUserNotificationTimeout s user.name) _ rfl
      (projMap_setKey hu1 hname.symm) hwf1
  · rw [hupd]
    exact @TimerFresh_congr (clearUserNotificationTimeout s user.name) _ rfl rfl
      (projMap_setKey hu1 rfl) htf1
  · rw [hupd]
    have h2 := countStatus_setKey
      (⟨user.name, st, now, u1.notificationTimeout⟩ : User) hu1 Status.outside
    simp only [hstat] at h2
    show countStatus (setKey (clearUserNotificationTimeout s user.name).users sid
      ⟨user.name, st, now, u1.notificationTimeout⟩) Status.outside ≤ MAX_OUTSIDE
    omega

/-! ## Invariant preservation: the remaining handlers -/

theorem leave_class_Inv {s : ServerState} (hinv : Inv s) (sid : Nat) (now : Nat) :
    Inv (handleLeaveClass s sid now).1 := by
  obtain ⟨hwf, htf, hcount⟩ := hinv
  cases hget : getKey s.users sid with
  | none => simpa [handleLeaveClass, hget] using (⟨hwf, htf, hcount⟩ : Inv s)
  | some user =>
      have hO : (getState s.users).outside.length = countStatus s.users Status.outside :=
        length_getState_outside (WF_DNodup hwf)
      have hone : (if Status.outside = Status.outside then 1 else 0) = 1 := rfl
      have hzero : (if Status.queue = Status.outside then 1 else 0) = 0 := rfl
      simp only [handleLeaveClass, hget]
      split_ifs with hA hB hC hD
      · have hqs : user.status = Status.queue := (isQueued_iff hwf hget).mp hB.1
        refine cun_Inv hwf htf hget Status.outside now ?_
        rw [hqs, hone, hzero]
        have h1 := hB.2.1
        have h2 := hB.2.2
        omega
      · refine cun_Inv hwf htf hget Status.outside now ?_
        have h2 := hC.2
        rw [hone]
        omega
      · refine cun_Inv hwf htf hget Status.queue now ?_
        rw [hzero]
        omega
      · refine cun_Inv hwf htf hget Status.outside now ?_
        rw [hone]
        omega
      · refine cun_Inv hwf htf hget Status.queue now ?_
        rw [hzero]
        omega

theorem come_back_Inv {s : ServerState} (hinv : Inv s) (sid : Nat) (now : Nat) :
    Inv (handleComeBack s sid now).1 := by
  obtain ⟨hwf, htf, hcount⟩ := hinv
  cases hget : getKey s.users sid with
  | none => simpa [handleComeBack, hget] using (⟨hwf, htf, hcount⟩ : Inv s)
  | some user =>
      by_cases hst : user.status = Status.outside
      · simp only [handleComeBack, hget, hst, ne_eq, not_true_eq_false, if_false]
        exact update_notify_Inv_le ⟨hwf, htf, hcount⟩ user.name (by simp) now
      · simpa [handleComeBack, hget, hst] using (⟨hwf, htf, hcount⟩ : Inv s)

theorem leave_queue_Inv {s : ServerState} (hinv : Inv s) (sid : Nat) (now : Nat) :
    Inv (handleLeaveQueue s sid now).1 := by
  obtain ⟨hwf, htf, hcount⟩ := hinv
  cases hget : getKey s.users sid with
  | none => simpa [handleLeaveQueue, hget] using (⟨hwf, htf, hcount⟩ : Inv s)
  | some user =>
      by_cases hst : user.status = Status.queue
      · simp only [handleLeaveQueue, hget, hst, ne_eq, not_true_eq_false, if_false]
        exact update_notify_Inv_le (clear_Inv ⟨hwf, htf, hcount⟩ user.name) user.name
          (by simp) now
      · simpa [handleLeaveQueue, hget, hst] using (⟨hwf, htf, hcount⟩ : Inv s)

theorem request_state_Inv {s : ServerState} (hinv : Inv s) (sid : Nat) :
    Inv (handleRequestState s sid).1 := by
  cases hget : getKey s.users sid with
  | none => simpa [handleRequestState, hget] using hinv
  | some user => simpa [handleRequestState, hget] using hinv

theorem disconnect_Inv {s : ServerState} (hinv : Inv s) (sid : Nat) :
    Inv (handleDisconnect s sid).1 := by
  obtain ⟨hwf, htf, hcount⟩ := hinv
  cases hget : getKey s.users sid with
  | none => simpa [handleDisconnect, hget] using (⟨hwf, htf, hcount⟩ : Inv s)
  | some user =>
      have hreg : getKey s.nameToSockets (lower user.name) = some [sid] :=
        WF_registry hwf hget
      have hclear : clearUserNotificationTimeout
          ({ s with nameToSockets := delKey s.nameToSockets (lower user.name) }) user.name =
          { s with nameToSockets := delKey s.nameToSockets (lower user.name) } := by
        have hnone : getUserByName
            ({ s with nameToSockets := delKey s.nameToSockets (lower user.name) })
            user.name = none := by
          simp only [getUserByName, getKey_delKey_self hwf.2.1]
        simp [clearUserNotificationTimeout, hnone]
      simp only [handleDisconnect, hget, hreg]
      simp only [List.filter_cons, List.filter_nil, decide_not, decide_True,
        Bool.not_true, if_neg, List.length_nil, if_pos, hclear]
      refine notify_Inv ⟨⟨?_, ?_, ?_, ?_⟩, ⟨htf.1, htf.2.1, ?_⟩, ?_⟩
      · exact keys_delKey_nodup hwf.1
      · exact keys_delKey_nodup hwf.2.1
      · intro p hp
        exact hwf.2.2.1 p (mem_delKey hp)
      · intro q hq
        have hmem := mem_delKey hq
        have hne := mem_delKey_ne hwf.1 hq
        have hold := hwf.2.2.2 q hmem
        by_cases hk : (lower q.2.name) = (lower user.name)
        · rw [hk] at hold
          rw [hreg] at hold
          have h5 : sid = q.1 := by simpa using hold
          exact absurd h5.symm hne
        · rw [getKey_delKey_ne _ hk]
          exact hold
      · intro q hq
        exact htf.2.2 q (mem_delKey hq)
      · exact le_trans (countStatus_delKey_le _ _ _) hcount

theorem fireTimer_Inv {s : ServerState} (hinv : Inv s) (tid : Nat) (now : Nat) :
    Inv (fireTimer s tid now).1 := by
  obtain ⟨hwf, htf, hcount⟩ := hinv
  cases hf : s.liveTimers.find? (fun t => t.id = tid) with
  | none => simpa [fireTimer, hf] using (⟨hwf, htf, hcount⟩ : Inv s)
  | some t =>
      have hinv0 : Inv ({ s with
          liveTimers := s.liveTimers.filter (fun t2 => t2.id ≠ tid) }) := by
        refine ⟨?_, ⟨htf.1, ?_, htf.2.2⟩, hcount⟩
        · exact @WF_congr s _ rfl rfl hwf
        · intro t2 ht2
          exact htf.2.1 t2 (List.mem_of_mem_filter ht2)
      simp only [fireTimer, hf, timerCallback]
      cases hg : getUserByName
          ({ s with liveTimers := s.liveTimers.filter (fun t2 => t2.id ≠ tid) }) t.owner with
      | none => simpa using hinv0
      | some p =>
          by_cases hq : p.2.status = Status.queue
          · simp only [hq, if_pos rfl]
            exact update_notify_Inv_le hinv0 t.owner (by simp) now
          · simpa [hq] using hinv0

theorem step_Inv {s : ServerState} (hinv : Inv s) (e : Event) (now : Nat) :
    Inv (step s e now).1 := by
  cases e with
  | login sid raw => exact login_Inv hinv sid raw now
  | leave_class sid => exact leave_class_Inv hinv sid now
  | come_back sid => exact come_back_Inv hinv sid now
  | leave_queue sid => exact leave_queue_Inv hinv sid now
  | request_state sid => exact request_state_Inv hinv sid
  | disconnect sid => exact disconnect_Inv hinv sid
  | timer_fire tid => exact fireTimer_Inv hinv tid now

theorem init_Inv : Inv initState := by
  refine ⟨⟨?_, ?_, ?_, ?_⟩, ⟨?_, ?_, ?_⟩, ?_⟩ <;> simp [initState, countStatus, MAX_OUTSIDE]

theorem reachable_Inv {s : ServerState} (h : Reachable s) : Inv s := by
  induction h with
  | init => exact init_Inv
  | step s e now _ ih => exact step_Inv ih e now

theorem reachable_runEvents (evs : List (Event × Nat)) {s : ServerState}
    (h : Reachable s) : Reachable (runEvents s evs) := by
  induction evs generalizing s with
  | nil => exact h
  | cons ev rest ih =>
      rw [runEvents, List.foldl_cons]
      exact ih (Reachable.step s ev.1 ev.2 h)

/-! ## C1: the outside list never exceeds `MAX_OUTSIDE` -/

/-- C1: for every sequence of login, leave_class, come_back, leave_queue,
disconnect and claim-timer-expiry events (every reachable server state), the
projected outside list never contains more than `MAX_OUTSIDE = 4` identities. -/
theorem C1_outside_bounded (s : ServerState) (h : Reachable s) :
    (getState s.users).outside.length ≤ MAX_OUTSIDE := by
  have hinv := reachable_Inv h
  rw [length_getState_outside (WF_DNodup hinv.1)]
  exact hinv.2.2

/-- Witness for C1: the bound holds at the concrete reachable state in which
four identities are outside and one is queued. -/
theorem C1_witness : (getState stateFull.users).outside.length ≤ MAX_OUTSIDE :=
  C1_outside_bounded stateFull (reachable_runEvents scenarioFull Reachable.init)

/-! ## C10: every registry entry holds exactly one socket -/

/-- C10: in every reachable state, every entry of the `nameToSockets` registry
holds exactly one socket id — `login` never binds a second live connection to
a name, so an identity never has two concurrent connections and the spec's
multi-tab scenarios are unreachable. -/
theorem C10_registry_singleton (s : ServerState) (h : Reachable s) :
    (s.nameToSockets.all (fun p => p.2.length = 1)) = true := by
  rw [List.all_eq_true]
  intro p hp
  exact decide_eq_true ((reachable_Inv h).1.2.2.1 p hp)

/-- Witness for C10 at a concrete reachable state with five registered
identities. -/
theorem C10_witness :
    (stateNotified.nameToSockets.all (fun p => p.2.length = 1)) = true :=
  C10_registry_singleton stateNotified (reachable_runEvents scenarioNotified Reachable.init)

/-! ## C9: a `state_update` precedes every `your_turn` -/

theorem bbt_of_no_yt {es : List Emit} (h : ∀ a ∈ es, isYourTurn a = false) :
    broadcastBeforeTurn es := by
  intro i hi hyt
  rw [h _ (List.get_mem es i hi)] at hyt
  cases hyt

theorem bbt_shape : ∀ (as : List Emit) (v : StateView) (bs : List Emit),
    (∀ a ∈ as, isYourTurn a = false) →
    broadcastBeforeTurn (as ++ Emit.state_update v :: bs) := by
  intro as
  induction as with
  | nil =>
      intro v bs _ i hi hyt
      cases i with
      | zero => simp [isYourTurn] at hyt
      | succ k =>
          refine ⟨0, by simp, by omega, ?_⟩
          simp [isStateUpdate]
  | cons a rest ih =>
      intro v bs ha i hi hyt
      cases i with
      | zero =>
          simp only [List.cons_append, List.get] at hyt
          rw [ha a (List.mem_cons_self _ _)] at hyt
          cases hyt
      | succ k =>
          simp only [List.cons_append, List.length_cons] at hi
          have hk : k < (rest ++ Emit.state_update v :: bs).length := by
            simpa using Nat.lt_of_succ_lt_succ hi
          have hyt' : isYourTurn ((rest ++ Emit.state_update v :: bs).get ⟨k, hk⟩) = true := by
            simpa [List.cons_append, List.get] using hyt
          rcases ih v bs (fun x hx => ha x (List.mem_cons_of_mem _ hx)) k hk hyt' with
            ⟨j, hj, hjk, hsu⟩
          refine ⟨j + 1, by simpa using Nat.succ_lt_succ hj, by omega, ?_⟩
          simpa [List.cons_append, List.get] using hsu

/-- C9: for every state-changing event, the `state_update` broadcast is
emitted before the Turn Notifier pass runs, so any `your_turn` signal in the
step's emission trace is preceded by a `state_update`. -/
theorem C9_broadcast_before_turn (s : ServerState) (e : Event) (now : Nat) :
    broadcastBeforeTurn (step s e now).2 := by
  cases e with
  | login sid raw =>
      refine bbt_of_no_yt ?_
      intro a ha
      simp only [step] at ha
      cases hs : sanitizeName raw with
      | none =>
          simp [handleLogin, hs] at ha
          rw [ha]
          rfl
      | some sanitized =>
          cases hnt : getKey s.nameToSockets (lower sanitized) with
          | some socks =>
              by_cases hmem : sid ∈ socks
              · simp [handleLogin, hs, hnt, hmem] at ha
                rcases ha with ha | ha <;> (rw [ha]; rfl)
              · by_cases hpos : socks.length > 0
                · simp [handleLogin, hs, hnt, hmem, hpos] at ha
                  rw [ha]
                  rfl
                · simp [handleLogin, hs, hnt, hmem, hpos] at ha
                  rcases ha with ha | ha <;> (rw [ha]; rfl)
          | none =>
              simp [handleLogin, hs, hnt] at ha
              rcases ha with ha | ha <;> (rw [ha]; rfl)
  | leave_class sid =>
      cases hget : getKey s.users sid with
      | none =>
          refine bbt_of_no_yt ?_
          simp [step, handleLeaveClass, hget]
      | some user =>
          simp only [step, handleLeaveClass, hget]
          exact bbt_shape [] _ _ (by simp)
  | come_back sid =>
      cases hget : getKey s.users sid with
      | none =>
          refine bbt_of_no_yt ?_
          simp [step, handleComeBack, hget]
      | some user =>
          by_cases hst : user.status = Status.outside
          · simp only [step, handleComeBack, hget, hst, ne_eq, not_true_eq_false, if_false]
            exact bbt_shape [] _ _ (by simp)
          · refine bbt_of_no_yt ?_
            simp [step, handleComeBack, hget, hst]
  | leave_queue sid =>
      cases hget : getKey s.users sid with
      | none =>
          refine bbt_of_no_yt ?_
          simp [step, handleLeaveQueue, hget]
      | some user =>
          by_cases hst : user.status = Status.queue
          · simp only [step, handleLeaveQueue, hget, hst, ne_eq, not_true_eq_false, if_false]
            exact bbt_shape [] _ _ (by simp)
          · refine bbt_of_no_yt ?_
            simp [step, handleLeaveQueue, hget, hst]
  | request_state sid =>
      refine bbt_of_no_yt ?_
      intro a ha
      simp only [step] at ha
      cases hget : getKey s.users sid with
      | none =>
          simp [handleRequestState, hget] at ha
          rw [ha]
          rfl
      | some user =>
          simp [handleRequestState, hget] at ha
          rcases ha with ha | ha <;> (rw [ha]; rfl)
  | disconnect sid =>
      cases hget : getKey s.users sid with
      | none =>
          refine bbt_of_no_yt ?_
          simp [step, handleDisconnect, hget]
      | some user =>
          cases hnt : getKey s.nameToSockets (lower user.name) with
          | none =>
              refine bbt_of_no_yt ?_
              simp [step, handleDisconnect, hget, hnt]
          | some socks =>
              simp only [step, handleDisconnect, hget, hnt]
              by_cases hlen : (socks.filter (fun x => x ≠ sid)).length = 0
              · rw [if_pos hlen]
                exact bbt_shape [] _ _ (by simp)
              · rw [if_neg hlen]
                exact bbt_of_no_yt (by simp)
  | timer_fire tid =>
      cases hf : s.liveTimers.find? (fun t => t.id = tid) with
      | none =>
          refine bbt_of_no_yt ?_
          simp [step, fireTimer, hf]
      | some t =>
          simp only [step, fireTimer, hf, timerCallback]
          cases hg : getUserByName
              ({ s with liveTimers := s.liveTimers.filter (fun t2 => t2.id ≠ tid) })
              t.owner with
          | none => exact bbt_of_no_yt (by simp)
          | some p =>
              by_cases hq : p.2.status = Status.queue
              · simp only [hq, if_pos rfl]
                refine bbt_shape _ _ _ ?_
                intro a ha
                rcases List.mem_map.mp ha with ⟨sid2, _, hae⟩
                rw [← hae]
                rfl
              · simp only [if_neg hq]
                exact bbt_of_no_yt (by simp)

/-! ## C2: the `leave_class` admission rule -/

theorem handleLeaveClass_eq {s : ServerState} {sid : Nat} {user : User} (now : Nat)
    (hget : getKey s.users sid = some user) :
    handleLeaveClass s sid now =
      ((notifyNextInQueue (updateUserStatus (clearUserNotificationTimeout s user.name)
          user.name (codeLeaveClassTarget s user) now)).1,
       Emit.state_update (getState (updateUserStatus (clearUserNotificationTimeout s user.name)
          user.name (codeLeaveClassTarget s user) now).users) ::
        (notifyNextInQueue (updateUserStatus (clearUserNotificationTimeout s user.name)
          user.name (codeLeaveClassTarget s user) now)).2) := by
  simp only [handleLeaveClass, codeLeaveClassTarget, hget]
  split_ifs <;> rfl

theorem findIdx?_isSome_of_any {p : Entry → Bool} :
    ∀ (l : List Entry) (i : Nat), l.any p = true → (List.findIdx? p l i).isSome = true := by
  intro l
  induction l with
  | nil =>
      intro i h
      simp at h
  | cons a rest ih =>
      intro i h
      rw [List.findIdx?]
      by_cases hp : p a = true
      · simp [hp]
      · rw [if_neg (by simpa using hp)]
        simp only [List.any_cons] at h
        rcases Bool.or_eq_true_iff.mp h with h' | h'
        · exact absurd h' hp
        · exact ih (i + 1) h'

theorem findIndexByName_pos {l : List Entry} {name : String}
    (h : l.any (fun u2 => decide ((lower u2.name) = (lower name))) = true) :
    findIndexByName l name > (-1 : Int) := by
  rw [findIndexByName]
  split
  · rename_i i hi
    omega
  · rename_i hnone
    have h2 := findIdx?_isSome_of_any l 0 h
    rw [hnone] at h2
    simp at h2

theorem code_spec_target_eq {s : ServerState} {sid : Nat} {user : User} (hwf : WF s)
    (hget : getKey s.users sid = some user) :
    codeLeaveClassTarget s user = specLeaveClassTarget (getState s.users) user := by
  have hiff := isQueued_iff hwf hget
  rw [codeLeaveClassTarget, specLeaveClassTarget]
  by_cases hqc : (getState s.users).queue.length = 0
  · rw [if_neg (by omega), if_pos hqc]
  · rw [if_pos (by omega), if_neg hqc]
    by_cases hst : user.status = Status.queue
    · have hany := hiff.mpr hst
      have hpos := findIndexByName_pos hany
      by_cases hidx : findIndexByName (getState s.users).queue user.name <
          (MAX_OUTSIDE : Int) - (((getState s.users).outside.length : Nat) : Int)
      · rw [if_pos ⟨hany, hpos, hidx⟩, if_pos ⟨hst, hidx⟩]
      · rw [if_neg (fun hc => hidx hc.2.2),
          if_neg (fun hc => by rw [hany] at hc; exact absurd hc.1 (by simp)),
          if_neg (fun hc => hidx hc.2),
          if_neg (fun hc => hc.1 hst)]
    · have hany : ((getState s.users).queue.any
          (fun u2 => decide ((lower u2.name) = (lower user.name)))) = false := by
        cases hb : ((getState s.users).queue.any
            (fun u2 => decide ((lower u2.name) = (lower user.name)))) with
        | true => exact absurd (hiff.mp hb) hst
        | false => rfl
      by_cases hqlt : (((getState s.users).queue.length : Nat) : Int) <
          (MAX_OUTSIDE : Int) - (((getState s.users).outside.length : Nat) : Int)
      · rw [if_neg (fun hc => by rw [hany] at hc; exact absurd hc.1 (by simp)),
          if_pos ⟨hany, hqlt⟩, if_neg (fun hc => hst hc.1), if_pos ⟨hst, hqlt⟩]
      · rw [if_neg (fun hc => by rw [hany] at hc; exact absurd hc.1 (by simp)),
          if_neg (fun hc => hqlt hc.2), if_neg (fun hc => hst hc.1),
          if_neg (fun hc => hqlt hc.2)]

theorem clear_liveTimers_removes {s : ServerState} {name : String} {sid : Nat} {u : User}
    (hg : getUserByName s name = some (sid, u)) {tid : Nat}
    (hnt : u.notificationTimeout = some tid) :
    (clearUserNotificationTimeout s name).liveTimers =
      s.liveTimers.filter (fun t => t.id ≠ tid) := by
  simp [clearUserNotificationTimeout, hg, hnt]

/-- C2: for every authenticated identity sending `leave_class` in a reachable
state, the handler assigns it exactly the status the claim's admission rule
(`specLeaveClassTarget`) prescribes — outside/queue decided by the outside
count, the FIFO queue index and `avail = MAX_OUTSIDE - O` — and in all cases
resets its `statusSince` (`joinedAt`) to the current time and cancels any
pending claim timer of the identity. -/
theorem C2_leave_class_rules (s : ServerState) (sid : Nat) (now : Nat) (user : User)
    (hreach : Reachable s) (hget : getKey s.users sid = some user) :
    ∃ u1, getKey (handleLeaveClass s sid now).1.users sid = some u1 ∧
      u1.name = user.name ∧
      u1.joinedAt = now ∧
      u1.status = specLeaveClassTarget (getState s.users) user ∧
      (∀ tid, user.notificationTimeout = some tid →
        ∀ t ∈ (handleLeaveClass s sid now).1.liveTimers, t.id ≠ tid) := by
  obtain ⟨hwf, htf, hcount⟩ := reachable_Inv hreach
  rw [handleLeaveClass_eq now hget]
  have hst_eq := code_spec_target_eq hwf hget
  have hcl := clear_projMap_viewFields s user.name
  have hwf1 : WF (clearUserNotificationTimeout s user.name) :=
    @WF_congr s (clearUserNotificationTimeout s user.name) (clear_nameToSockets s user.name)
      (projMap_comp_of_eq (fun v => v.1) hcl) hwf
  rcases option_map_eq_some
      ((getKey_map_of_projMap_eq hcl sid).trans (by rw [hget]; rfl)) with ⟨u1, hu1, hv⟩
  have hname : u1.name = user.name := congrArg (fun v => v.1) hv
  have hupd := updateUserStatus_eq hwf1 hu1 (codeLeaveClassTarget s user) now
  rw [hname] at hupd
  have hrec : (getKey (notifyNextInQueue (updateUserStatus
      (clearUserNotificationTimeout s user.name) user.name
      (codeLeaveClassTarget s user) now)).1.users sid).map viewFields =
      some (user.name, codeLeaveClassTarget s user, now) := by
    rw [getKey_map_of_projMap_eq (notify_projMap_viewFields _) sid, hupd]
    show (getKey (setKey (clearUserNotificationTimeout s user.name).users sid
      ⟨user.name, codeLeaveClassTarget s user, now, u1.notificationTimeout⟩) sid).map
        viewFields = _
    rw [getKey_setKey_self]
    rfl
  rcases option_map_eq_some hrec with ⟨u2, hu2, hv2⟩
  refine ⟨u2, hu2, congrArg (fun v => v.1) hv2, congrArg (fun v => v.2.2) hv2, ?_, ?_⟩
  · exact (congrArg (fun v : String × Status × Nat => v.2.1) hv2).trans hst_eq
  · intro tid htid t ht
    rcases notify_liveTimers_mem ht with h' | h'
    · have h2 : t ∈ (clearUserNotificationTimeout s user.name).liveTimers := by
        rw [hupd] at h'
        exact h'
      rw [clear_liveTimers_removes (WF_getUserByName hwf hget) htid] at h2
      have := List.of_mem_filter h2
      simpa using this
    · have hbound : tid < s.nextTimerId := by
        have h3 := htf.2.2 (sid, user) (getKey_some_mem hget)
        simp only [htid] at h3
        simpa using h3
      have hn2 : (updateUserStatus (clearUserNotificationTimeout s user.name) user.name
          (codeLeaveClassTarget s user) now).nextTimerId = s.nextTimerId := by
        rw [hupd]
        exact clear_nextTimerId s user.name
      rw [hn2] at h'
      omega

/-- Witness for C2: in the reachable state with `A`–`D` outside and `E`
queued, the outside identity `A` sends `leave_class` into the full class and
the rule assigns it `queue`. -/
theorem C2_witness :
    ∃ u1, getKey (handleLeaveClass stateFive 1 20).1.users 1 = some u1 ∧
      u1.name = "A" ∧
      u1.joinedAt = 20 ∧
      u1.status = specLeaveClassTarget (getState stateFive.users)
        ⟨"A", Status.outside, 5, none⟩ ∧
      (∀ tid, (⟨"A", Status.outside, 5, none⟩ : User).notificationTimeout = some tid →
        ∀ t ∈ (handleLeaveClass stateFive 1 20).1.liveTimers, t.id ≠ tid) :=
  C2_leave_class_rules stateFive 1 20 ⟨"A", Status.outside, 5, none⟩
    (reachable_runEvents scenarioFive Reachable.init) (by decide)

/-! ## C5: disconnect of the last connection and the armed claim timer -/

/-- C5 (code bug): in the reachable state `stateNotified` the identity `E`
holds an armed claim timer; after its only socket disconnects, the registry
entry and the presence record are purged, but the armed timer survives in the
live-timer set: the disconnect handler deletes the registry key **before**
calling `clearUserNotificationTimeout`, which therefore can no longer resolve
the identity and cancels nothing. -/
theorem C5_timer_survives_disconnect :
    holdsArmedTimer stateNotified "E" = true ∧
    getKey stateAfterDisconnect.users 5 = none ∧
    getKey stateAfterDisconnect.nameToSockets "e" = none ∧
    stateAfterDisconnect.liveTimers = [⟨1, "E", NOTIFICATION_TIMEOUT⟩] :=
  ⟨by decide, by decide, by decide, by decide⟩

/-! ## C6: status-guarded no-ops -/

/-- C6 counterexample: the claim says `leave_class` from an `outside` identity
is a silently ignored no-op; in the reachable full-class state, the `outside`
identity `A` sends `leave_class` and the handler demotes it to `queue`. -/
theorem C6_counterexample :
    (getKey stateFull.users 1).map User.status = some Status.outside ∧
    (getKey stateDemoted.users 1).map User.status = some Status.queue ∧
    stateDemoted ≠ stateFull :=
  ⟨by decide, by decide, by decide⟩

/-- C6 (amended): `come_back` from any status other than `outside` and
`leave_queue` from any status other than `queue` are silently ignored no-ops
that leave all server state unchanged and emit nothing; `leave_class`,
however, has no status guard — an identity whose status is `outside` is
processed by the ordinary admission rules and its state can change. -/
theorem C6_illegal_transitions_noop (s : ServerState) (sid : Nat) (now : Nat) (user : User)
    (hget : getKey s.users sid = some user) :
    (user.status ≠ Status.outside → handleComeBack s sid now = (s, [])) ∧
    (user.status ≠ Status.queue → handleLeaveQueue s sid now = (s, [])) := by
  constructor
  · intro h
    simp [handleComeBack, hget, h]
  · intro h
    simp [handleLeaveQueue, hget, h]

/-- Witness for the amended C6 at a concrete one-user idle state. -/
theorem C6_witness :
    handleComeBack stateIdleA 1 5 = (stateIdleA, []) ∧
    handleLeaveQueue stateIdleA 1 5 = (stateIdleA, []) := by
  have h := C6_illegal_transitions_noop stateIdleA 1 5 ⟨"A", Status.idle, 0, none⟩ (by decide)
  exact ⟨h.1 (by decide), h.2 (by decide)⟩

/-! ## C7: name collision -/

/-- C7: as long as the canonical key of a name is held by a non-empty socket
set that does not contain the requesting connection, its `login` fails with
`login_error "Name already in use"` and changes no server state; once the key
is gone (all owning connections disconnected, so the disconnect handler
deleted the entry), the same `login` succeeds. -/
theorem C7_name_in_use (s : ServerState) (sid2 : Nat) (raw : Option String)
    (now : Nat) (sanitized : String) (h1 : sanitizeName raw = some sanitized) :
    (∀ socks, getKey s.nameToSockets (lower sanitized) = some socks →
      sid2 ∉ socks → socks ≠ [] →
      handleLogin s sid2 raw now = (s, [Emit.login_error sid2 "Name already in use"])) ∧
    (getKey s.nameToSockets (lower sanitized) = none →
      handleLogin s sid2 raw now =
        ({ s with
           nameToSockets := setKey s.nameToSockets (lower sanitized) [sid2],
           users := setKey s.users sid2 ⟨sanitized, Status.idle, now, none⟩ },
         [Emit.login_success sid2 sanitized,
          Emit.state_update (getState (setKey s.users sid2
            ⟨sanitized, Status.idle, now, none⟩))])) := by
  constructor
  · intro socks hnt hmem hne
    have hpos : socks.length > 0 := by
      cases socks with
      | nil => exact absurd rfl hne
      | cons a r => simp
    simp [handleLogin, h1, hnt, hmem, hpos]
  · intro hnt
    simp [handleLogin, h1, hnt]

/-- Witness for C7: socket 2 cannot take the name `A` owned by socket 1, and
succeeds on a fresh server. -/
theorem C7_witness :
    handleLogin stateIdleA 2 (some "A") 7 =
      (stateIdleA, [Emit.login_error 2 "Name already in use"]) ∧
    handleLogin initState 2 (some "A") 7 =
      ({ initState with
         nameToSockets := setKey initState.nameToSockets (lower "A") [2],
         users := setKey initState.users 2 ⟨"A", Status.idle, 7, none⟩ },
       [Emit.login_success 2 "A",
        Emit.state_update (getState (setKey initState.users 2
          ⟨"A", Status.idle, 7, none⟩))]) :=
  ⟨(C7_name_in_use stateIdleA 2 (some "A") 7 "A" (by decide)).1 [1] (by decide)
      (by decide) (by decide),
   (C7_name_in_use initState 2 (some "A") 7 "A" (by decide)).2 (by decide)⟩

/-! ## C8: login idempotence -/

/-- C8: a connection that already owns its canonical name and logs in again
with that name always receives `login_success` followed by the broadcast, the
registry, timers and allocator are untouched, and the only possible state
change is recreating a missing presence record with status `idle` and the
current timestamp. -/
theorem C8_login_idempotent (s : ServerState) (sid : Nat) (raw : Option String)
    (now : Nat) (sanitized : String) (socks : List Nat)
    (h1 : sanitizeName raw = some sanitized)
    (h2 : getKey s.nameToSockets (lower sanitized) = some socks)
    (h3 : sid ∈ socks) :
    (handleLogin s sid raw now).2 =
      [Emit.login_success sid sanitized,
       Emit.state_update (getState (handleLogin s sid raw now).1.users)] ∧
    (handleLogin s sid raw now).1.nameToSockets = s.nameToSockets ∧
    (handleLogin s sid raw now).1.liveTimers = s.liveTimers ∧
    (handleLogin s sid raw now).1.nextTimerId = s.nextTimerId ∧
    (∀ u, getKey s.users sid = some u → (handleLogin s sid raw now).1 = s) ∧
    (getKey s.users sid = none →
      (handleLogin s sid raw now).1.users =
        setKey s.users sid ⟨sanitized, Status.idle, now, none⟩) := by
  cases hu : getKey s.users sid with
  | some u0 => simp [handleLogin, h1, h2, h3, hu]
  | none => simp [handleLogin, h1, h2, h3, hu]

/-- Witness for C8: socket 1 re-logs-in as the name it owns; the state is
unchanged. -/
theorem C8_witness : (handleLogin stateIdleA 1 (some "A") 9).1 = stateIdleA :=
  (C8_login_idempotent stateIdleA 1 (some "A") 9 "A" [1] (by decide) (by decide)
    (by decide)).2.2.2.2.1 ⟨"A", Status.idle, 0, none⟩ (by decide)

/-! ## C4: the claim-expiry callback -/

theorem getUserByName_sockets {s : ServerState} {name : String} {sidp : Nat} {u : User}
    (h : getUserByName s name = some (sidp, u)) :
    ∃ rest, getKey s.nameToSockets (lower name) = some (sidp :: rest) := by
  rw [getUserByName] at h
  cases hnt : getKey s.nameToSockets (lower name) with
  | none => simp [hnt] at h
  | some socks =>
      cases socks with
      | nil => simp [hnt] at h
      | cons sid0 rest =>
          cases hu : getKey s.users sid0 with
          | none => simp [hnt, hu] at h
          | some u0 =>
              simp only [hnt, hu, Option.some.injEq, Prod.mk.injEq] at h
              refine ⟨rest, ?_⟩
              rw [h.1]

theorem updateUserStatus_eq' {s : ServerState} {name : String} {sidp : Nat} {u : User}
    (hsocks : getSocketsByName s name = [sidp])
    (hu : getKey s.users sidp = some u) (st : Status) (now : Nat) :
    updateUserStatus s name st now =
      { s with users := setKey s.users sidp { u with status := st, joinedAt := now } } := by
  simp only [updateUserStatus, hsocks, List.foldl_cons, List.foldl_nil, hu]

/-- C4: when the live claim timer `t` fires in a well-formed state: if the
owner identity no longer resolves or is no longer in `queue` status, the
server state is unchanged apart from the consumed timer and nothing is
emitted; if the owner is still queued it transitions to `idle` — never to
`outside` — a `queue_timeout` is emitted to every one of its sockets, the new
state is broadcast, and the full Turn Notifier pass is re-run on the updated
state, with its emissions following the broadcast. -/
theorem C4_claim_expiry (s : ServerState) (tid : Nat) (now : Nat) (t : Timer)
    (hinv : Inv s)
    (hf : s.liveTimers.find? (fun t2 => t2.id = tid) = some t) :
    (getUserByName { s with liveTimers := s.liveTimers.filter (fun t2 => t2.id ≠ tid) }
        t.owner = none →
      fireTimer s tid now =
        ({ s with liveTimers := s.liveTimers.filter (fun t2 => t2.id ≠ tid) }, [])) ∧
    (∀ p, getUserByName { s with liveTimers := s.liveTimers.filter (fun t2 => t2.id ≠ tid) }
        t.owner = some p → p.2.status ≠ Status.queue →
      fireTimer s tid now =
        ({ s with liveTimers := s.liveTimers.filter (fun t2 => t2.id ≠ tid) }, [])) ∧
    (∀ sidp u, getUserByName { s with liveTimers := s.liveTimers.filter (fun t2 => t2.id ≠ tid) }
        t.owner = some (sidp, u) → u.status = Status.queue →
      fireTimer s tid now =
        ((notifyNextInQueue (updateUserStatus
            { s with liveTimers := s.liveTimers.filter (fun t2 => t2.id ≠ tid) }
            t.owner Status.idle now)).1,
         (getSocketsByName (updateUserStatus
            { s with liveTimers := s.liveTimers.filter (fun t2 => t2.id ≠ tid) }
            t.owner Status.idle now) t.owner).map (fun sid2 => Emit.queue_timeout sid2) ++
          Emit.state_update (getState (updateUserStatus
            { s with liveTimers := s.liveTimers.filter (fun t2 => t2.id ≠ tid) }
            t.owner Status.idle now).users) ::
           (notifyNextInQueue (updateUserStatus
             { s with liveTimers := s.liveTimers.filter (fun t2 => t2.id ≠ tid) }
             t.owner Status.idle now)).2) ∧
      (getKey (fireTimer s tid now).1.users sidp).map User.status = some Status.idle) := by
  refine ⟨?_, ?_, ?_⟩
  · intro hg
    simp only [fireTimer, hf, timerCallback, hg]
  · intro p hg hne
    simp only [fireTimer, hf, timerCallback, hg, if_neg hne]
  · intro sidp u hg hq
    have heq : fireTimer s tid now =
        ((notifyNextInQueue (updateUserStatus
            { s with liveTimers := s.liveTimers.filter (fun t2 => t2.id ≠ tid) }
            t.owner Status.idle now)).1,
         (getSocketsByName (updateUserStatus
            { s with liveTimers := s.liveTimers.filter (fun t2 => t2.id ≠ tid) }
            t.owner Status.idle now) t.owner).map (fun sid2 => Emit.queue_timeout sid2) ++
          Emit.state_update (getState (updateUserStatus
            { s with liveTimers := s.liveTimers.filter (fun t2 => t2.id ≠ tid) }
            t.owner Status.idle now).users) ::
           (notifyNextInQueue (updateUserStatus
             { s with liveTimers := s.liveTimers.filter (fun t2 => t2.id ≠ tid) }
             t.owner Status.idle now)).2) := by
      simp only [fireTimer, hf, timerCallback, hg, hq, eq_self_iff_true, if_true]
    refine ⟨heq, ?_⟩
    have hwf0 : WF ({ s with
        liveTimers := s.liveTimers.filter (fun t2 => t2.id ≠ tid) }) :=
      @WF_congr s _ rfl rfl hinv.1
    have hu := getUserByName_getKey hg
    rcases getUserByName_sockets hg with ⟨rest, hsocks⟩
    have hlen := hwf0.2.2.1 _ (getKey_some_mem hsocks)
    have hrest : rest = [] := by
      simp only [List.length_cons] at hlen
      exact List.length_eq_zero.mp (by omega)
    subst hrest
    have hsocks' : getSocketsByName
        ({ s with liveTimers := s.liveTimers.filter (fun t2 => t2.id ≠ tid) })
        t.owner = [sidp] := by
      rw [getSocketsByName, hsocks]
      rfl
    have hupd := updateUserStatus_eq' hsocks' hu Status.idle now
    rw [heq]
    rw [getKey_map_of_projMap_eq (notify_projMap_status _) sidp, hupd]
    show (getKey (setKey ({ s with
        liveTimers := s.liveTimers.filter (fun t2 => t2.id ≠ tid) }).users sidp
      { u with status := Status.idle, joinedAt := now }) sidp).map User.status =
        some Status.idle
    rw [getKey_setKey_self]
    rfl

/-- Witness for C4: in the reachable state where `E` holds the claim timer,
firing it demotes `E` to `idle` (not `outside`). -/
theorem C4_witness :
    (getKey (fireTimer stateNotified 1 30).1.users 5).map User.status =
      some Status.idle := by
  have h := C4_claim_expiry stateNotified 1 30 ⟨1, "E", NOTIFICATION_TIMEOUT⟩
    (by unfold Inv WF TimerFresh; decide) (by decide)
  exact (h.2.2 5 ⟨"E", Status.queue, 9, some 1⟩ (by decide) (by decide)).2

/-! ## C3: the Turn Notifier pass -/

theorem user_nt_none_eta {u : User} (h : u.notificationTimeout = none) :
    { u with notificationTimeout := none } = u := by
  cases u
  simp only at h
  simp [h]

theorem statusEntries_names_sublist (us : List (Nat × User)) (st : Status) :
    ((statusEntries us st).map (fun e => lower e.name)).Sublist
      (us.map (fun p => lower p.2.name)) := by
  induction us with
  | nil => simp [statusEntries]
  | cons p rest ih =>
      rw [statusEntries]
      by_cases hst : p.2.status = st
      · rw [if_pos hst]
        simp only [List.map_cons]
        exact ih.cons₂ _
      · rw [if_neg hst]
        simp only [List.map_cons]
        exact ih.cons _

theorem queue_names_nodup {us : List (Nat × User)} (hnd : DNodupLower us) :
    (((getState us).queue).map (fun e => lower e.name)).Nodup := by
  rw [getState_eq hnd]
  have hperm : (((sortByJoined (statusEntries us Status.queue)).map
      (fun e => lower e.name))).Perm
      ((statusEntries us Status.queue).map (fun e => lower e.name)) :=
    (sortByJoined_perm _).map _
  rw [hperm.nodup_iff]
  exact (statusEntries_names_sublist us Status.queue).nodup hnd

theorem queue_resolves {s : ServerState} (hwf : WF s) :
    ∀ e ∈ (getState s.users).queue, ∃ sid u,
      getKey s.nameToSockets (lower e.name) = some [sid] ∧
      getKey s.users sid = some u ∧ u.name = e.name ∧ u.status = Status.queue := by
  intro e he
  rcases (mem_getState_queue (WF_DNodup hwf)).mp he with ⟨p, hpmem, hpst, hpe⟩
  have hk : getKey s.users p.1 = some p.2 := getKey_eq_of_mem hwf.1 hpmem
  refine ⟨p.1, p.2, ?_, hk, ?_, hpst⟩
  · have h4 := hwf.2.2.2 p hpmem
    rw [hpe]
    exact h4
  · rw [hpe]

theorem get_mem_drop {l : List Entry} {n i : Nat} (hi : i < l.length) (hn : n ≤ i) :
    l.get ⟨i, hi⟩ ∈ l.drop n := by
  have h2 : i - n < (l.drop n).length := by
    rw [List.length_drop]
    omega
  have h3 : (l.drop n).get ⟨i - n, h2⟩ = l.get ⟨i, hi⟩ := by
    simp only [List.get_eq_getElem, List.getElem_drop]
    congr 1
    omega
  rw [← h3]
  exact List.get_mem _ _ _

theorem nodup_take_get_ne {l : List Entry} (hnd : l.Nodup) {n i : Nat}
    (hi : i < l.length) (hn : n ≤ i) {e : Entry} (he : e ∈ l.take n) :
    e ≠ l.get ⟨i, hi⟩ := by
  intro heq
  have hsplit := List.take_append_drop n l
  have hnd2 : (l.take n ++ l.drop n).Nodup := by rw [hsplit]; exact hnd
  rw [List.nodup_append] at hnd2
  exact hnd2.2.2 he (heq ▸ get_mem_drop hi hn)

theorem clearFold_detail : ∀ (l : List Entry) (s : ServerState),
    (∀ e ∈ l, ∃ sid u, getKey s.nameToSockets (lower e.name) = some [sid] ∧
      getKey s.users sid = some u ∧ u.name = e.name) →
    ((l.map (fun e => lower e.name)).Nodup) →
    ((∀ e ∈ l, ∀ sid u,
      getKey s.nameToSockets (lower e.name) = some [sid] →
      getKey s.users sid = some u → u.name = e.name →
      getKey (l.foldl (fun acc q => clearUserNotificationTimeout acc q.name) s).users sid =
        some { u with notificationTimeout := none } ∧
      (∀ tid, u.notificationTimeout = some tid →
        ∀ t ∈ (l.foldl (fun acc q => clearUserNotificationTimeout acc q.name) s).liveTimers,
          t.id ≠ tid)) ∧
    (∀ k : Nat, (∀ e ∈ l, getKey s.nameToSockets (lower e.name) ≠ some [k]) →
      getKey (l.foldl (fun acc q => clearUserNotificationTimeout acc q.name) s).users k =
        getKey s.users k)) := by
  intro l
  induction l with
  | nil =>
      intro s _ _
      exact ⟨fun e he => absurd he (List.not_mem_nil e), fun k _ => rfl⟩
  | cons e0 rest ih =>
      intro s hres hnd
      obtain ⟨sid0, u0, hk0, hu0, hn0⟩ := hres e0 (List.mem_cons_self _ _)
      have hgub : getUserByName s e0.name = some (sid0, u0) := by
        simp only [getUserByName, hk0, hu0]
      rw [List.map_cons, List.nodup_cons] at hnd
      have hB : getKey (clearUserNotificationTimeout s e0.name).users sid0 =
          some { u0 with notificationTimeout := none } := by
        cases hnt0 : u0.notificationTimeout with
        | none =>
            simp only [clearUserNotificationTimeout, hgub, hnt0]
            rw [user_nt_none_eta hnt0, hu0]
        | some tid0 =>
            simp only [clearUserNotificationTimeout, hgub, hnt0]
            exact getKey_setKey_self _ _ _
      have hC : ∀ k, k ≠ sid0 →
          getKey (clearUserNotificationTimeout s e0.name).users k = getKey s.users k := by
        intro k hk
        cases hnt0 : u0.notificationTimeout with
        | none => simp only [clearUserNotificationTimeout, hgub, hnt0]
        | some tid0 =>
            simp only [clearUserNotificationTimeout, hgub, hnt0]
            exact getKey_setKey_ne _ _ hk
      have hE : ∀ tid, u0.notificationTimeout = some tid →
          ∀ t ∈ (clearUserNotificationTimeout s e0.name).liveTimers, t.id ≠ tid := by
        intro tid htid t ht
        rw [clear_liveTimers_removes hgub htid] at ht
        have := List.of_mem_filter ht
        simpa using this
      have hdistinct : ∀ e1 ∈ rest, ∀ sid1 u1,
          getKey s.nameToSockets (lower e1.name) = some [sid1] →
          getKey s.users sid1 = some u1 → u1.name = e1.name → sid1 ≠ sid0 := by
        intro e1 he1 sid1 u1 hk1 hu1 hn1 heq
        subst heq
        rw [hu0] at hu1
        have hu01 : u0 = u1 := by simpa using hu1
        refine hnd.1 ?_
        have hle : lower e1.name = lower e0.name := by
          rw [← hn1, ← hu01, hn0]
        rw [← hle]
        exact List.mem_map_of_mem (fun e => lower e.name) he1
      have hres' : ∀ e ∈ rest, ∃ sid u,
          getKey (clearUserNotificationTimeout s e0.name).nameToSockets (lower e.name) =
            some [sid] ∧
          getKey (clearUserNotificationTimeout s e0.name).users sid = some u ∧
          u.name = e.name := by
        intro e he
        obtain ⟨sid1, u1, hk1, hu1, hn1⟩ := hres e (List.mem_cons_of_mem _ he)
        refine ⟨sid1, u1, ?_, ?_, hn1⟩
        · rw [clear_nameToSockets]
          exact hk1
        · rw [hC sid1 (hdistinct e he sid1 u1 hk1 hu1 hn1)]
          exact hu1
      obtain ⟨IH1, IH2⟩ := ih (clearUserNotificationTimeout s e0.name) hres' hnd.2
      simp only [List.foldl_cons]
      constructor
      · intro e he sid u hk hu hn
        rcases List.mem_cons.mp he with he0 | herest
        · subst he0
          have hsid : sid = sid0 := by
            rw [hk0] at hk
            have : ([sid0] : List Nat) = [sid] := by simpa using hk
            simpa using this.symm
          subst hsid
          have hueq : u = u0 := by
            rw [hu0] at hu
            simpa using hu.symm
          subst hueq
          constructor
          · rw [IH2 sid ?_]
            · exact hB
            · intro e1 he1 habs
              rw [clear_nameToSockets] at habs
              obtain ⟨sid1, u1, hk1, hu1, hn1⟩ := hres e1 (List.mem_cons_of_mem _ he1)
              rw [hk1] at habs
              have hs1 : sid1 = sid := by
                have : ([sid1] : List Nat) = [sid] := by simpa using habs
                simpa using this
              exact (hdistinct e1 he1 sid1 u1 hk1 hu1 hn1) hs1
          · intro tid htid t ht
            exact hE tid htid t (clearFold_liveTimers_sub ht)
        · obtain ⟨hrec, htimers⟩ := IH1 e herest sid u
            (by rw [clear_nameToSockets]; exact hk)
            (by rw [hC sid (hdistinct e herest sid u hk hu hn)]; exact hu) hn
          exact ⟨hrec, htimers⟩
      · intro k hks
        rw [IH2 k ?_]
        · refine hC k ?_
          intro heqk
          subst heqk
          exact hks e0 (List.mem_cons_self _ _) hk0
        · intro e1 he1 habs
          rw [clear_nameToSockets] at habs
          exact hks e1 (List.mem_cons_of_mem _ he1) habs

theorem armFold_detail : ∀ (l : List Entry) (s : ServerState) (es : List Emit),
    (∀ e ∈ l, ∃ sid u, getKey s.nameToSockets (lower e.name) = some [sid] ∧
      getKey s.users sid = some u ∧ u.name = e.name) →
    ((l.map (fun e => lower e.name)).Nodup) →
    ((∀ e ∈ l, ∀ sid u,
      getKey s.nameToSockets (lower e.name) = some [sid] →
      getKey s.users sid = some u → u.name = e.name →
      ∃ tid, s.nextTimerId ≤ tid ∧
        getKey ((l.foldl (fun (acc : ServerState × List Emit) q =>
            ((armOne acc.1 q).1, acc.2 ++ (armOne acc.1 q).2)) (s, es)).1).users sid =
          some { u with notificationTimeout := some tid } ∧
        (⟨tid, e.name, NOTIFICATION_TIMEOUT⟩ : Timer) ∈
          ((l.foldl (fun (acc : ServerState × List Emit) q =>
            ((armOne acc.1 q).1, acc.2 ++ (armOne acc.1 q).2)) (s, es)).1).liveTimers ∧
        Emit.your_turn sid ∈
          (l.foldl (fun (acc : ServerState × List Emit) q =>
            ((armOne acc.1 q).1, acc.2 ++ (armOne acc.1 q).2)) (s, es)).2) ∧
    (∀ k : Nat, (∀ e ∈ l, getKey s.nameToSockets (lower e.name) ≠ some [k]) →
      getKey ((l.foldl (fun (acc : ServerState × List Emit) q =>
          ((armOne acc.1 q).1, acc.2 ++ (armOne acc.1 q).2)) (s, es)).1).users k =
        getKey s.users k) ∧
    (∀ x ∈ es, x ∈ (l.foldl (fun (acc : ServerState × List Emit) q =>
        ((armOne acc.1 q).1, acc.2 ++ (armOne acc.1 q).2)) (s, es)).2) ∧
    (∀ t ∈ s.liveTimers, t ∈ ((l.foldl (fun (acc : ServerState × List Emit) q =>
        ((armOne acc.1 q).1, acc.2 ++ (armOne acc.1 q).2)) (s, es)).1).liveTimers)) := by
  intro l
  induction l with
  | nil =>
      intro s es _ _
      exact ⟨fun e he => absurd he (List.not_mem_nil e), fun k _ => rfl,
        fun x hx => hx, fun t ht => ht⟩
  | cons e0 rest ih =>
      intro s es hres hnd
      obtain ⟨sid0, u0, hk0, hu0, hn0⟩ := hres e0 (List.mem_cons_self _ _)
      have hgub : getUserByName s e0.name = some (sid0, u0) := by
        simp only [getUserByName, hk0, hu0]
      rw [List.map_cons, List.nodup_cons] at hnd
      have hs1users : (armOne s e0).1.users =
          setKey s.users sid0 { u0 with notificationTimeout := some s.nextTimerId } := by
        simp only [armOne, hgub]
      have hs1lt : (armOne s e0).1.liveTimers =
          s.liveTimers ++ [⟨s.nextTimerId, e0.name, NOTIFICATION_TIMEOUT⟩] := by
        simp only [armOne, hgub]
      have hs1nt : (armOne s e0).1.nameToSockets = s.nameToSockets :=
        armOne_nameToSockets s e0
      have hs1id : (armOne s e0).1.nextTimerId = s.nextTimerId + 1 := by
        simp only [armOne, hgub]
      have hemit : (armOne s e0).2 = [Emit.your_turn sid0] := by
        simp [armOne, hgub, getSocketsByName, hk0]
      have hdistinct : ∀ e1 ∈ rest, ∀ sid1 u1,
          getKey s.nameToSockets (lower e1.name) = some [sid1] →
          getKey s.users sid1 = some u1 → u1.name = e1.name → sid1 ≠ sid0 := by
        intro e1 he1 sid1 u1 hk1 hu1 hn1 heq
        subst heq
        rw [hu0] at hu1
        have hu01 : u0 = u1 := by simpa using hu1
        refine hnd.1 ?_
        have hle : lower e1.name = lower e0.name := by
          rw [← hn1, ← hu01, hn0]
        rw [← hle]
        exact List.mem_map_of_mem (fun e => lower e.name) he1
      have hres' : ∀ e ∈ rest, ∃ sid u,
          getKey (armOne s e0).1.nameToSockets (lower e.name) = some [sid] ∧
          getKey (armOne s e0).1.users sid = some u ∧ u.name = e.name := by
        intro e he
        obtain ⟨sid1, u1, hk1, hu1, hn1⟩ := hres e (List.mem_cons_of_mem _ he)
        refine ⟨sid1, u1, ?_, ?_, hn1⟩
        · rw [hs1nt]
          exact hk1
        · rw [hs1users, getKey_setKey_ne _ _ (hdistinct e he sid1 u1 hk1 hu1 hn1)]
          exact hu1
      obtain ⟨IH1, IH2, IH3, IH4⟩ :=
        ih (armOne s e0).1 (es ++ (armOne s e0).2) hres' hnd.2
      simp only [List.foldl_cons]
      refine ⟨?_, ?_, ?_, ?_⟩
      · intro e he sid u hk hu hn
        rcases List.mem_cons.mp he with he0 | herest
        · subst he0
          have hsid : sid = sid0 := by
            rw [hk0] at hk
            have h2 : ([sid0] : List Nat) = [sid] := by simpa using hk
            simpa using h2.symm
          subst hsid
          have hueq : u = u0 := by
            rw [hu0] at hu
            simpa using hu.symm
          subst hueq
          refine ⟨s.nextTimerId, le_refl _, ?_, ?_, ?_⟩
          · rw [IH2 sid ?_]
            · rw [hs1users]
              exact getKey_setKey_self _ _ _
            · intro e1 he1 habs
              rw [hs1nt] at habs
              obtain ⟨sid1, u1, hk1, hu1, hn1⟩ := hres e1 (List.mem_cons_of_mem _ he1)
              rw [hk1] at habs
              have hs1 : sid1 = sid := by
                have h2 : ([sid1] : List Nat) = [sid] := by simpa using habs
                simpa using h2
              exact (hdistinct e1 he1 sid1 u1 hk1 hu1 hn1) hs1
          · refine IH4 _ ?_
            rw [hs1lt]
            exact List.mem_append_right _ (List.mem_singleton.mpr rfl)
          · refine IH3 _ ?_
            rw [hemit]
            exact List.mem_append_right _ (List.mem_singleton.mpr rfl)
        · obtain ⟨tid, htid1, htid2, htid3, htid4⟩ := IH1 e herest sid u
            (by rw [hs1nt]; exact hk)
            (by rw [hs1users, getKey_setKey_ne _ _ (hdistinct e herest sid u hk hu hn)]
                exact hu) hn
          refine ⟨tid, ?_, htid2, htid3, htid4⟩
          rw [hs1id] at htid1
          omega
      · intro k hks
        rw [IH2 k ?_]
        · rw [hs1users]
          refine getKey_setKey_ne _ _ ?_
          intro heqk
          subst heqk
          exact hks e0 (List.mem_cons_self _ _) hk0
        · intro e1 he1 habs
          rw [hs1nt] at habs
          exact hks e1 (List.mem_cons_of_mem _ he1) habs
      · intro x hx
        exact IH3 x (List.mem_append_left _ hx)
      · intro t ht
        refine IH4 t ?_
        rw [hs1lt]
        exact List.mem_append_left _ ht

theorem filter_le_of_tail_false {α : Type} (p : α → Bool) :
    ∀ (l : List α) (n : Nat),
      (∀ (i : Nat) (hi : i < l.length), n ≤ i → p (l.get ⟨i, hi⟩) = false) →
      (l.filter p).length ≤ n := by
  intro l
  induction l with
  | nil =>
      intro n _
      simp
  | cons a rest ih =>
      intro n h
      cases n with
      | zero =>
          have ha : p a = false := h 0 (by simp) (Nat.zero_le _)
          have hrest : (rest.filter p).length ≤ 0 := by
            refine ih 0 ?_
            intro i hi _
            exact h (i + 1) (by simp only [List.length_cons]; omega) (Nat.zero_le _)
          simp only [List.filter_cons, ha, Bool.false_eq_true, if_false]
          exact hrest
      | succ m =>
          have hrest : (rest.filter p).length ≤ m := by
            refine ih m ?_
            intro i hi hmi
            exact h (i + 1) (by simp only [List.length_cons]; omega) (by omega)
          have hstep : ((a :: rest).filter p).length ≤ (rest.filter p).length + 1 := by
            rw [List.filter_cons]
            split
            · simp
            · simp
          omega

theorem holdsArmed_false_of_cleared {s2 : ServerState} {name : String} {sid : Nat} {u : User}
    (hk : getKey s2.nameToSockets (lower name) = some [sid])
    (hu : getKey s2.users sid = some { u with notificationTimeout := none }) :
    holdsArmedTimer s2 name = false := by
  have hg : getUserByName s2 name = some (sid, { u with notificationTimeout := none }) := by
    simp only [getUserByName, hk, hu]
  simp only [holdsArmedTimer, hg]

/-- **C3** — after every Turn Notifier pass, with `avail = max(0, MAX_OUTSIDE −
outsideCount)` (Nat subtraction): (1) every previously armed claim timer of
every currently queued identity has been cancelled — no surviving live timer
carries a handle that was stored in a queued record before the pass; (2)
exactly the first `min(avail, |queue|)` queued identities in FIFO order hold a
freshly armed `NOTIFICATION_TIMEOUT` (2-minute) claim timer and have been sent
`your_turn` on every one of their connections, while every later queued
identity is left holding no timeout handle at all; (3) at most `avail` queued
identities hold an armed claim timer after the pass. -/
theorem C3_notifier_pass (s : ServerState) (hinv : Inv s) :
    (∀ e ∈ (getState s.users).queue, ∀ sid u,
      getKey s.nameToSockets (lower e.name) = some [sid] →
      getKey s.users sid = some u →
      ∀ tid, u.notificationTimeout = some tid →
        ∀ t ∈ (notifyNextInQueue s).1.liveTimers, t.id ≠ tid) ∧
    (∀ (i : Nat) (hi : i < (getState s.users).queue.length), ∀ sid u,
      getKey s.nameToSockets
        (lower ((getState s.users).queue.get ⟨i, hi⟩).name) = some [sid] →
      getKey s.users sid = some u →
      (i < min (MAX_OUTSIDE - (getState s.users).outside.length)
          (getState s.users).queue.length →
        ∃ tid, s.nextTimerId ≤ tid ∧
          getKey (notifyNextInQueue s).1.users sid =
            some { u with notificationTimeout := some tid } ∧
          (⟨tid, ((getState s.users).queue.get ⟨i, hi⟩).name,
            NOTIFICATION_TIMEOUT⟩ : Timer) ∈ (notifyNextInQueue s).1.liveTimers ∧
          (∀ k ∈ getSocketsByName (notifyNextInQueue s).1
              ((getState s.users).queue.get ⟨i, hi⟩).name,
            Emit.your_turn k ∈ (notifyNextInQueue s).2)) ∧
      (min (MAX_OUTSIDE - (getState s.users).outside.length)
          (getState s.users).queue.length ≤ i →
        getKey (notifyNextInQueue s).1.users sid =
          some { u with notificationTimeout := none })) ∧
    ((getState s.users).queue.filter
        (fun e => holdsArmedTimer (notifyNextInQueue s).1 e.name)).length ≤
      MAX_OUTSIDE - (getState s.users).outside.length := by
  obtain ⟨hwf, htf, hcount⟩ := hinv
  have hnd : DNodupLower s.users := WF_DNodup hwf
  have hqnd : (((getState s.users).queue).map (fun e => lower e.name)).Nodup :=
    queue_names_nodup hnd
  have hqvnd : ((getState s.users).queue).Nodup := List.Nodup.of_map _ hqnd
  have hqres := queue_resolves hwf
  have hresC : ∀ e ∈ (getState s.users).queue, ∃ sid u,
      getKey s.nameToSockets (lower e.name) = some [sid] ∧
      getKey s.users sid = some u ∧ u.name = e.name := by
    intro e he
    obtain ⟨sid, u, h1, h2, h3, _⟩ := hqres e he
    exact ⟨sid, u, h1, h2, h3⟩
  have hdet : ∀ e ∈ (getState s.users).queue, ∀ sid u,
      getKey s.nameToSockets (lower e.name) = some [sid] →
      getKey s.users sid = some u → u.name = e.name := by
    intro e he sid u hk hu
    obtain ⟨sid2, u2, hk2, hu2, hn2, _⟩ := hqres e he
    rw [hk2] at hk
    have hsid : sid2 = sid := by
      have h3 : ([sid2] : List Nat) = [sid] := by simpa using hk
      simpa using h3
    subst hsid
    rw [hu2] at hu
    have huu : u2 = u := by simpa using hu
    rw [← huu]
    exact hn2
  obtain ⟨CF1, CF2⟩ := clearFold_detail (getState s.users).queue s hresC hqnd
  by_cases hdeg : MAX_OUTSIDE - (getState s.users).outside.length = 0 ∨
      (getState s.users).queue.length = 0
  · have hnn : notifyNextInQueue s =
        ((getState s.users).queue.foldl
          (fun acc q => clearUserNotificationTimeout acc q.name) s, []) := by
      simp only [notifyNextInQueue]
      rw [if_pos hdeg]
    have hfin1 : (notifyNextInQueue s).1 =
        (getState s.users).queue.foldl
          (fun acc q => clearUserNotificationTimeout acc q.name) s := by
      rw [hnn]
    have hmin0 : min (MAX_OUTSIDE - (getState s.users).outside.length)
        (getState s.users).queue.length = 0 := by
      rcases hdeg with h | h <;> simp [h]
    refine ⟨?_, ?_, ?_⟩
    · intro e he sid u hk hu tid htid t ht
      rw [hfin1] at ht
      exact (CF1 e he sid u hk hu (hdet e he sid u hk hu)).2 tid htid t ht
    · intro i hi sid u hk hu
      have hmemi : (getState s.users).queue.get ⟨i, hi⟩ ∈ (getState s.users).queue :=
        List.get_mem _ _ _
      refine ⟨?_, ?_⟩
      · intro hlt
        rw [hmin0] at hlt
        exact absurd hlt (Nat.not_lt_zero i)
      · intro _
        rw [hfin1]
        exact (CF1 _ hmemi sid u hk hu (hdet _ hmemi sid u hk hu)).1
    · refine le_trans (filter_le_of_tail_false _ _ 0 ?_) (Nat.zero_le _)
      intro i hi _
      have hmemi : (getState s.users).queue.get ⟨i, hi⟩ ∈ (getState s.users).queue :=
        List.get_mem _ _ _
      obtain ⟨sid, u, hk, hu, hn2, _⟩ := hqres _ hmemi
      refine @holdsArmed_false_of_cleared (notifyNextInQueue s).1 _ sid u ?_ ?_
      · rw [hfin1, clearFold_nameToSockets]
        exact hk
      · rw [hfin1]
        exact (CF1 _ hmemi sid u hk hu hn2).1
  · have hnn : notifyNextInQueue s =
        (((getState s.users).queue.take
            (min (MAX_OUTSIDE - (getState s.users).outside.length)
              (getState s.users).queue.length)).foldl
          (fun (acc : ServerState × List Emit) q =>
            ((armOne acc.1 q).1, acc.2 ++ (armOne acc.1 q).2))
          ((getState s.users).queue.foldl
            (fun acc q => clearUserNotificationTimeout acc q.name) s, [])) := by
      simp only [notifyNextInQueue]
      rw [if_neg hdeg]
    have hfin1 := congrArg Prod.fst hnn
    have hfin2 := congrArg Prod.snd hnn
    have hndA : (((getState s.users).queue.take
        (min (MAX_OUTSIDE - (getState s.users).outside.length)
          (getState s.users).queue.length)).map (fun e => lower e.name)).Nodup := by
      rw [List.map_take]
      exact List.Nodup.sublist (List.take_sublist _ _) hqnd
    have hresA : ∀ e ∈ (getState s.users).queue.take
        (min (MAX_OUTSIDE - (getState s.users).outside.length)
          (getState s.users).queue.length), ∃ sid u,
        getKey ((getState s.users).queue.foldl
          (fun acc q => clearUserNotificationTimeout acc q.name) s).nameToSockets
          (lower e.name) = some [sid] ∧
        getKey ((getState s.users).queue.foldl
          (fun acc q => clearUserNotificationTimeout acc q.name) s).users sid = some u ∧
        u.name = e.name := by
      intro e he
      have he2 := List.take_subset _ _ he
      obtain ⟨sid, u, hk, hu, hn2⟩ := hresC e he2
      refine ⟨sid, { u with notificationTimeout := none }, ?_, ?_, hn2⟩
      · rw [clearFold_nameToSockets]
        exact hk
      · exact (CF1 e he2 sid u hk hu hn2).1
    obtain ⟨AF1, AF2, AF3, AF4⟩ := armFold_detail
      ((getState s.users).queue.take
        (min (MAX_OUTSIDE - (getState s.users).outside.length)
          (getState s.users).queue.length))
      ((getState s.users).queue.foldl
        (fun acc q => clearUserNotificationTimeout acc q.name) s) [] hresA hndA
    have hcross : ∀ (i : Nat) (hi : i < (getState s.users).queue.length),
        min (MAX_OUTSIDE - (getState s.users).outside.length)
          (getState s.users).queue.length ≤ i →
        ∀ sid, getKey s.nameToSockets
          (lower ((getState s.users).queue.get ⟨i, hi⟩).name) = some [sid] →
        ∀ e1 ∈ (getState s.users).queue.take
          (min (MAX_OUTSIDE - (getState s.users).outside.length)
            (getState s.users).queue.length),
          getKey ((getState s.users).queue.foldl
            (fun acc q => clearUserNotificationTimeout acc q.name) s).nameToSockets
            (lower e1.name) ≠ some [sid] := by
      intro i hi hni sid hk e1 he1 habs
      rw [clearFold_nameToSockets] at habs
      have he1q := List.take_subset _ _ he1
      obtain ⟨sid1, u1, hk1, hu1, hn1, _⟩ := hqres e1 he1q
      rw [hk1] at habs
      have hs1 : sid1 = sid := by
        have h3 : ([sid1] : List Nat) = [sid] := by simpa using habs
        simpa using h3
      subst hs1
      have hmemi : (getState s.users).queue.get ⟨i, hi⟩ ∈ (getState s.users).queue :=
        List.get_mem _ _ _
      obtain ⟨sid2, u2, hk2, hu2, hn2bis, _⟩ := hqres _ hmemi
      rw [hk2] at hk
      have hs2 : sid2 = sid1 := by
        have h3 : ([sid2] : List Nat) = [sid1] := by simpa using hk
        simpa using h3
      subst hs2
      rw [hu1] at hu2
      have huu : u1 = u2 := by simpa using hu2
      have hle : lower e1.name =
          lower ((getState s.users).queue.get ⟨i, hi⟩).name := by
        rw [← hn1, huu, hn2bis]
      have he1eq : e1 = (getState s.users).queue.get ⟨i, hi⟩ :=
        List.inj_on_of_nodup_map hqnd he1q hmemi hle
      exact (nodup_take_get_ne hqvnd hi hni he1) he1eq
    refine ⟨?_, ?_, ?_⟩
    · intro e he sid u hk hu tid htid t ht
      rw [hfin1] at ht
      rcases armFold_liveTimers_mem ht with h1 | h1
      · exact (CF1 e he sid u hk hu (hdet e he sid u hk hu)).2 tid htid t h1
      · intro heq
        rw [clearFold_nextTimerId] at h1
        have hq2 : u.notificationTimeout.getD 0 < s.nextTimerId :=
          htf.2.2 (sid, u) (getKey_some_mem hu)
        rw [htid] at hq2
        simp only [Option.getD_some] at hq2
        rw [heq] at h1
        omega
    · intro i hi sid u hk hu
      have hmemi : (getState s.users).queue.get ⟨i, hi⟩ ∈ (getState s.users).queue :=
        List.get_mem _ _ _
      have hnm : u.name = ((getState s.users).queue.get ⟨i, hi⟩).name :=
        hdet _ hmemi sid u hk hu
      refine ⟨?_, ?_⟩
      · intro hlt
        have hit : i < ((getState s.users).queue.take
            (min (MAX_OUTSIDE - (getState s.users).outside.length)
              (getState s.users).queue.length)).length := by
          simp only [List.length_take]
          omega
        have hgeteq : ((getState s.users).queue.take
            (min (MAX_OUTSIDE - (getState s.users).outside.length)
              (getState s.users).queue.length)).get ⟨i, hit⟩ =
            (getState s.users).queue.get ⟨i, hi⟩ := by
          simp only [List.get_eq_getElem, List.getElem_take]
        have hememA : (getState s.users).queue.get ⟨i, hi⟩ ∈
            (getState s.users).queue.take
              (min (MAX_OUTSIDE - (getState s.users).outside.length)
                (getState s.users).queue.length) := by
          rw [← hgeteq]
          exact List.get_mem _ _ _
        have hk1 : getKey ((getState s.users).queue.foldl
            (fun acc q => clearUserNotificationTimeout acc q.name) s).nameToSockets
            (lower ((getState s.users).queue.get ⟨i, hi⟩).name) = some [sid] := by
          rw [clearFold_nameToSockets]
          exact hk
        have hu1 : getKey ((getState s.users).queue.foldl
            (fun acc q => clearUserNotificationTimeout acc q.name) s).users sid =
            some { u with notificationTimeout := none } :=
          (CF1 _ hmemi sid u hk hu hnm).1
        obtain ⟨tid, ht1, ht2, ht3, ht4⟩ :=
          AF1 _ hememA sid { u with notificationTimeout := none } hk1 hu1 hnm
        refine ⟨tid, ?_, ?_, ?_, ?_⟩
        · rw [clearFold_nextTimerId] at ht1
          exact ht1
        · rw [hfin1]
          exact ht2
        · rw [hfin1]
          exact ht3
        · intro k hkmem
          have hsk : getSocketsByName (notifyNextInQueue s).1
              ((getState s.users).queue.get ⟨i, hi⟩).name = [sid] := by
            simp only [getSocketsByName]
            rw [hfin1, armFold_nameToSockets, clearFold_nameToSockets, hk]
            rfl
          rw [hsk] at hkmem
          have hk2 : k = sid := by simpa using hkmem
          subst hk2
          rw [hfin2]
          exact ht4
      · intro hge
        rw [hfin1]
        rw [AF2 sid (hcross i hi hge sid hk)]
        exact (CF1 _ hmemi sid u hk hu hnm).1
    · refine le_trans (filter_le_of_tail_false _ _
        (min (MAX_OUTSIDE - (getState s.users).outside.length)
          (getState s.users).queue.length) ?_) (Nat.min_le_left _ _)
      intro i hi hni
      have hmemi : (getState s.users).queue.get ⟨i, hi⟩ ∈ (getState s.users).queue :=
        List.get_mem _ _ _
      obtain ⟨sid, u, hk, hu, hn2, _⟩ := hqres _ hmemi
      refine @holdsArmed_false_of_cleared (notifyNextInQueue s).1 _ sid u ?_ ?_
      · rw [hfin1, armFold_nameToSockets, clearFold_nameToSockets]
        exact hk
      · rw [hfin1, AF2 sid (hcross i hi hni sid hk)]
        exact (CF1 _ hmemi sid u hk hu hn2).1

/-- Witness for C3: in the reachable state where queued `E` holds armed claim
timer 1, a notifier pass cancels that previously armed timer — no surviving
live timer carries id 1. -/
theorem C3_witness :
    ((notifyNextInQueue stateNotified).1.liveTimers.all (fun t => t.id ≠ 1)) = true := by
  rw [List.all_eq_true]
  intro t ht
  have h := (C3_notifier_pass stateNotified (by unfold Inv WF TimerFresh; decide)).1
    ⟨"E", 9⟩ (by decide) 5 ⟨"E", Status.queue, 9, some 1⟩ (by decide) (by decide)
    1 rfl t ht
  simpa using h

end MyShama
